import Mathlib

/-!
Verification of the BonsaiDB local-database core against its specification.

This development shallowly embeds the code of `src/local/src/database.rs`
(transaction engine, view queries, transaction-log access) together with
`database_topic` from `src/crates/bonsaidb-core/src/pubsub.rs` and the
hosted pub/sub wrappers of `src/server/src/hosted.rs`.

Parts of the repository that the `src/` snapshot does not contain (the
`Document` codec and revisioning, the unique-view mapper, the
`limits` constants) and external collaborators whose contracts the spec
states (the sled ordered-KV engine, the circulate relay) are modelled from
the specification; each such definition carries a doc comment saying so.

Conventions: byte strings are `List Nat` (each element a byte value);
sled trees are association lists sorted by lexicographic byte order;
serialization of documents and view entries is modelled structurally
(the codec is a bijection, so trees store the decoded values directly).
-/

namespace BonsaiDb

/-- Byte strings: sequences of byte values. -/
abbrev Bytes := List Nat

/-- Strict lexicographic order on byte strings, the order sled iterates keys in. -/
def lexLt : Bytes → Bytes → Bool
  | [], [] => false
  | [], _ :: _ => true
  | _ :: _, [] => false
  | a :: as, b :: bs => if a < b then true else if b < a then false else lexLt as bs

/-- Big-endian byte encoding of a natural number into `k` bytes. -/
def natToBeBytes : Nat → Nat → Bytes
  | 0, _ => []
  | k + 1, n => natToBeBytes k (n / 256) ++ [n % 256]

/-- The 8-byte big-endian encoding of a `u64`, as produced by
`u64::to_be_bytes` / `as_big_endian_bytes` in the source. -/
def be8 (n : Nat) : Bytes := natToBeBytes 8 (n % 2 ^ 64)


/-- A sled tree: an association list from byte keys to values, kept sorted in
ascending lexicographic key order by `Tree.insert`. -/
abbrev Tree (α : Type) := List (Bytes × α)

namespace Tree

/-- Point lookup (`Tree::get`). -/
def get {α : Type} : Tree α → Bytes → Option α
  | [], _ => none
  | (k', v') :: rest, k => if k = k' then some v' else get rest k

/-- Point insert (`Tree::insert`), replacing any existing value for the key and
keeping the list sorted by key. -/
def insert {α : Type} : Tree α → Bytes → α → Tree α
  | [], k, v => [(k, v)]
  | (k', v') :: rest, k, v =>
    if lexLt k k' then (k, v) :: (k', v') :: rest
    else if k = k' then (k, v) :: rest
    else (k', v') :: insert rest k v

/-- Point remove (`Tree::remove`). -/
def remove {α : Type} : Tree α → Bytes → Tree α
  | [], _ => []
  | (k', v') :: rest, k => if k = k' then rest else (k', v') :: remove rest k

/-- The keys of a tree, in storage order. -/
def keys {α : Type} (t : Tree α) : List Bytes := t.map Prod.fst

/-- A tree is sorted when consecutive keys strictly ascend lexicographically;
sled trees always satisfy this. -/
def SortedKeys {α : Type} (t : Tree α) : Prop :=
  List.Chain' (fun a b => lexLt a b = true) (keys t)

/-- Bounded forward range scan (`Tree::range(start..end)`): all entries whose
key is at least `s` (inclusive) and below `e` (exclusive), in storage order. -/
def range {α : Type} (t : Tree α) (s e : Bytes) : Tree α :=
  t.filter fun kv => !lexLt kv.1 s && lexLt kv.1 e

/-- Forward range scan with inclusive upper bound (`Tree::range(start..=end)`). -/
def rangeIncl {α : Type} (t : Tree α) (s e : Bytes) : Tree α :=
  t.filter fun kv => !lexLt kv.1 s && !lexLt e kv.1

end Tree

end BonsaiDb

namespace BonsaiDb

/-- A document revision: `{generation, sha256}` (spec §3). -/
structure Revision where
  generation : Nat
  sha256 : Bytes
deriving DecidableEq, Repr

/-- A document header: `{id, revision, encryption_key?}`. -/
structure Header where
  id : Nat
  revision : Revision
  encryption_key : Option String
deriving DecidableEq, Repr

/-- A stored document: header plus contents bytes. -/
structure Document where
  header : Header
  contents : Bytes
deriving DecidableEq, Repr

/-- Modelled from the spec: the sha256 digest over document contents used by
revisioning (`Revision::sha256`); the hashing code is not under `src/`, so the
digest is modelled as an injective function of the contents (the contents
themselves), making digest equality coincide with contents equality. -/
def contentsDigest (contents : Bytes) : Bytes := contents

/-- Modelled from the spec: `Document::new` (not under `src/`). A freshly
inserted document gets the assigned id and revision generation 1 with the
digest of its contents (spec §3 and scenario 1). -/
def Document.new (id : Nat) (contents : Bytes) (encryption_key : Option String) : Document :=
  { header := { id := id
                revision := { generation := 1, sha256 := contentsDigest contents }
                encryption_key := encryption_key }
    contents := contents }

/-- Modelled from the spec: `Document::create_new_revision` (not under
`src/`). "A new revision is produced only if the new contents differ from the
current; generation increments, sha256 is computed over the new contents"
(spec §3); returns `none` when the digest is unchanged. -/
def Document.createNewRevision (doc : Document) (contents : Bytes) : Option Document :=
  if contentsDigest contents = doc.header.revision.sha256 then none
  else
    some { header := { doc.header with
                       revision := { generation := doc.header.revision.generation + 1
                                     sha256 := contentsDigest contents } }
           contents := contents }

/-- A transaction command (`transaction::Command`). -/
inductive Command where
  | insert (contents : Bytes) (encryption_key : Option String)
  | update (header : Header) (contents : Bytes)
  | delete (header : Header)
deriving DecidableEq, Repr

/-- A transaction operation (`transaction::Operation`). -/
structure Operation where
  collection : String
  command : Command
deriving DecidableEq, Repr

/-- A transaction: a batch of operations (`transaction::Transaction`). -/
structure Transaction where
  operations : List Operation
deriving DecidableEq, Repr

/-- The result of one executed operation (`transaction::OperationResult`). -/
inductive OperationResult where
  | success
  | documentUpdated (collection : String) (header : Header)
  | documentDeleted (collection : String) (id : Nat)
deriving DecidableEq, Repr

/-- One changed document recorded in the transaction log
(`transaction::ChangedDocument`). -/
structure ChangedDocument where
  collection : String
  id : Nat
  deleted : Bool
deriving DecidableEq, Repr

/-- A transaction-log record (`transaction::Executed`). -/
structure Executed where
  id : Nat
  changed_documents : List ChangedDocument
deriving DecidableEq, Repr

/-- The error kinds the embedded operations can return. -/
inductive DbError where
  | collectionNotFound
  | documentNotFound (collection : String) (id : Nat)
  | documentConflict (collection : String) (id : Nat)
  | uniqueKeyViolation
  | rangeQueryNotSupported
deriving DecidableEq, Repr

/-- One view mapping `{source, value}` stored inside a view entry. -/
structure Mapping where
  source : Nat
  value : Bytes
deriving DecidableEq, Repr

/-- A view entry: all mappings sharing a key plus the reduced value
(`views::ViewEntry`). -/
structure ViewEntry where
  key : Bytes
  mappings : List Mapping
  reduced_value : Bytes
deriving DecidableEq, Repr

/-- A view declaration as the schematic sees it (`view::Serialized`):
name, owning collection, the `unique` flag, and the map/reduce functions.
The map function returns the emitted `(key bytes, value bytes)` pairs. -/
structure ViewDef where
  name : String
  collection : String
  unique : Bool
  keysAreEncryptable : Bool
  mapFn : Document → List (Bytes × Bytes)
  reduceFn : List (Bytes × Bytes) → Bool → Bytes

/-- The schema registry (`Schematic`): known collections, views, and
per-collection encryption-key resolution (collection default or database
default, collapsed into one lookup). -/
structure Schematic where
  collections : List String
  views : List ViewDef
  encryptionKeyForCollection : String → Option String

/-- `Schematic::contains_collection_id`. -/
def Schematic.containsCollectionId (s : Schematic) (c : String) : Bool :=
  s.collections.contains c

/-- `Schematic::views_in_collection` (as a list; an absent collection gives
the empty list, observably equal to the source's `None`). -/
def Schematic.viewsInCollection (s : Schematic) (c : String) : List ViewDef :=
  s.views.filter (fun v => v.collection == c)

/-- `Schematic::unique_views_in_collection`. -/
def Schematic.uniqueViewsInCollection (s : Schematic) (c : String) : List ViewDef :=
  s.views.filter (fun v => v.unique && v.collection == c)

/-- One collection tree plus the per-tree monotonic id generator.
Modelled from the spec: the ordered KV engine offers "monotonic per-tree ID
generation" (spec §2/§4.A, §3: "obtained from the KV engine's per-tree ID
generator"); `generate_id` yields `lastId + 1`. -/
structure CollState where
  documents : Tree Document
  lastId : Nat
deriving DecidableEq, Repr

/-- The four per-view auxiliary trees (spec §3). -/
structure ViewTrees where
  entries : Tree ViewEntry
  documentMap : Tree (List Bytes)
  omitted : Tree Unit
  invalidated : Tree Unit
deriving DecidableEq, Repr

/-- The `{db}::transactions` tree plus its id-generator state. -/
structure TxLog where
  entries : Tree Executed
  lastId : Nat
deriving DecidableEq, Repr

/-- The whole on-disk state of one database: its collection trees (by
collection name), its per-view trees (by view name), and its transaction
log. -/
structure DbState where
  collections : String → CollState
  viewTrees : String → ViewTrees
  txLog : TxLog

/-- Replace one collection's tree state. -/
def DbState.setCollection (s : DbState) (c : String) (cs : CollState) : DbState :=
  { s with collections := fun c' => if c' = c then cs else s.collections c' }

/-- Replace one view's tree state. -/
def DbState.setViewTrees (s : DbState) (n : String) (vt : ViewTrees) : DbState :=
  { s with viewTrees := fun n' => if n' = n then vt else s.viewTrees n' }

/-- `transaction_tree_name`. -/
def transaction_tree_name (database : String) : String :=
  database ++ "::transactions"

/-- `document_tree_name`. -/
def document_tree_name (database : String) (collection : String) : String :=
  database ++ "::collection::" ++ collection

end BonsaiDb

namespace BonsaiDb

/-- Modelled from the spec: one step of the unique-view pipeline for a removed
key (spec §4.D): load the entry, drop the mapping for the document, remove the
entry when no mappings remain, else recompute the reduced value from the
remaining mappings (the mapper module is not under `src/`). -/
def removeMappingFromEntry (v : ViewDef) (docId : Nat)
    (entries : Tree ViewEntry) (k : Bytes) : Tree ViewEntry :=
  match Tree.get entries k with
  | none => entries
  | some entry =>
    let remaining := entry.mappings.filter (fun m => !(m.source == docId))
    if remaining.isEmpty then Tree.remove entries k
    else
      Tree.insert entries k
        { entry with
          mappings := remaining
          reduced_value := v.reduceFn (remaining.map fun m => (k, m.value)) false }

/-- Modelled from the spec: one step of the unique-view pipeline for an added
key (spec §4.D): load (or create) the entry; when the view is unique and the
entry already holds a mapping from a different document, abort with
`UniqueKeyViolation`; else insert the mapping and recompute the reduced
value. -/
def addMappingToEntry (v : ViewDef) (docId : Nat)
    (entries : Tree ViewEntry) (k : Bytes) (value : Bytes) :
    Except DbError (Tree ViewEntry) :=
  let entry := (Tree.get entries k).getD { key := k, mappings := [], reduced_value := [] }
  if v.unique && entry.mappings.any (fun m => !(m.source == docId)) then
    .error .uniqueKeyViolation
  else
    let mappings := entry.mappings ++ [{ source := docId, value := value }]
    .ok (Tree.insert entries k
      { entry with
        mappings := mappings
        reduced_value := v.reduceFn (mappings.map fun m => (k, m.value)) false })

/-- Modelled from the spec: the unique-view pipeline `mapper::DocumentRequest::map`
(the mapper module is not under `src/`; spec §4.D). Resolves the old key set
from `document-map`, computes the new key set by running the view's map over
the just-written document (the empty set when the document is gone), updates
the entries tree for removed and added keys, rewrites `document-map`, and
maintains `omitted`. The `invalidated` tree is untouched. -/
def DocumentRequest.map (v : ViewDef) (documents : Tree Document) (docId : Nat)
    (vt : ViewTrees) : Except DbError ViewTrees :=
  let docIdBytes := be8 docId
  let oldKeys := (Tree.get vt.documentMap docIdBytes).getD []
  let newMappings :=
    match Tree.get documents docIdBytes with
    | none => []
    | some doc => v.mapFn doc
  let newKeys := newMappings.map Prod.fst
  let removed := oldKeys.filter (fun k => !(newKeys.contains k))
  let added := newMappings.filter (fun kv => !(oldKeys.contains kv.1))
  let entries1 := removed.foldl (removeMappingFromEntry v docId) vt.entries
  match added.foldlM (fun es kv => addMappingToEntry v docId es kv.1 kv.2) entries1 with
  | .error e => .error e
  | .ok entries2 =>
    .ok { entries := entries2
          documentMap := Tree.insert vt.documentMap docIdBytes newKeys
          omitted :=
            if newKeys.isEmpty then Tree.insert vt.omitted docIdBytes ()
            else Tree.remove vt.omitted docIdBytes
          invalidated := vt.invalidated }

namespace Database

/-- `Database::update_unique_views`: run the unique-view pipeline for each
unique view of the operation's collection, inside the transaction. -/
def updateUniqueViews (schema : Schematic) (s : DbState) (collection : String)
    (docId : Nat) : Except DbError DbState :=
  (schema.uniqueViewsInCollection collection).foldlM
    (fun st v =>
      match DocumentRequest.map v (st.collections collection).documents docId
        (st.viewTrees v.name) with
      | .error e => .error e
      | .ok vt => .ok (st.setViewTrees v.name vt))
    s

/-- `Database::execute_insert`: allocate an id from the collection tree's id
generator, write the document, and run the unique-view pipeline. -/
def executeInsert (schema : Schematic) (s : DbState) (collection : String)
    (contents : Bytes) (encryption_key : Option String) :
    Except DbError (OperationResult × DbState) :=
  let cs := s.collections collection
  let id := cs.lastId + 1
  let doc := Document.new id contents encryption_key
  let documentId := be8 id
  let docs1 := Tree.insert cs.documents documentId doc
  let docs2 := Tree.insert docs1 documentId doc
  let s1 := s.setCollection collection { documents := docs2, lastId := id }
  match updateUniqueViews schema s1 collection id with
  | .error e => .error e
  | .ok s2 => .ok (OperationResult.documentUpdated collection doc.header, s2)

/-- `Database::execute_update`: read the stored document (absent aborts with
`DocumentNotFound`), compare revisions (mismatch aborts with
`DocumentConflict`), then either write the new revision and run the
unique-view pipeline, or — when the contents produce no new revision —
succeed with the unchanged header and write nothing. -/
def executeUpdate (schema : Schematic) (s : DbState) (collection : String)
    (header : Header) (contents : Bytes) :
    Except DbError (OperationResult × DbState) :=
  let cs := s.collections collection
  let documentId := be8 header.id
  match Tree.get cs.documents documentId with
  | some doc =>
    if doc.header.revision = header.revision then
      match doc.createNewRevision contents with
      | some updated =>
        let updatedDoc :=
          if updated.header.encryption_key ≠ header.encryption_key then
            { updated with header := { updated.header with
                                       encryption_key := header.encryption_key } }
          else updated
        let docs1 := Tree.insert cs.documents documentId updatedDoc
        let s1 := s.setCollection collection { cs with documents := docs1 }
        match updateUniqueViews schema s1 collection header.id with
        | .error e => .error e
        | .ok s2 => .ok (OperationResult.documentUpdated collection updatedDoc.header, s2)
      | none =>
        .ok (OperationResult.documentUpdated collection doc.header, s)
    else .error (DbError.documentConflict collection header.id)
  | none => .error (DbError.documentNotFound collection header.id)

/-- `Database::execute_delete`: read the stored document (absent aborts with
`DocumentNotFound`), compare whole headers (mismatch aborts with
`DocumentConflict`), remove the document, and run the unique-view pipeline. -/
def executeDelete (schema : Schematic) (s : DbState) (collection : String)
    (header : Header) : Except DbError (OperationResult × DbState) :=
  let cs := s.collections collection
  let documentId := be8 header.id
  match Tree.get cs.documents documentId with
  | some doc =>
    if doc.header = header then
      let docs1 := Tree.remove cs.documents documentId
      let s1 := s.setCollection collection { cs with documents := docs1 }
      match updateUniqueViews schema s1 collection header.id with
      | .error e => .error e
      | .ok s2 => .ok (OperationResult.documentDeleted collection header.id, s2)
    else .error (DbError.documentConflict collection header.id)
  | none => .error (DbError.documentNotFound collection header.id)

/-- `Database::execute_operation`: dispatch on the command, resolving the
insert encryption key against the collection default. -/
def executeOperation (schema : Schematic) (s : DbState) (op : Operation) :
    Except DbError (OperationResult × DbState) :=
  match op.command with
  | .insert contents encryption_key =>
    executeInsert schema s op.collection contents
      (match encryption_key with
       | some k => some k
       | none => schema.encryptionKeyForCollection op.collection)
  | .update header contents => executeUpdate schema s op.collection header contents
  | .delete header => executeDelete schema s op.collection header

/-- Execute a transaction's operations in order, threading the transactional
state; the first error aborts the batch. -/
def executeOperations (schema : Schematic) (s : DbState) :
    List Operation → Except DbError (List OperationResult × DbState)
  | [] => .ok ([], s)
  | op :: rest =>
    match executeOperation schema s op with
    | .error e => .error e
    | .ok (r, s1) =>
      match executeOperations schema s1 rest with
      | .error e => .error e
      | .ok (rs, s2) => .ok (r :: rs, s2)

end Database

/-- Build `changed_documents` from the operation results, in result order. -/
def changedDocumentsOf (results : List OperationResult) : List ChangedDocument :=
  results.filterMap fun r =>
    match r with
    | .documentUpdated collection header =>
      some { collection := collection, id := header.id, deleted := false }
    | .documentDeleted collection id =>
      some { collection := collection, id := id, deleted := true }
    | .success => none

/-- `itertools::group_by` over the changed documents: consecutive runs sharing
a collection, each tagged with that collection. -/
def groupByCollection : List ChangedDocument → List (String × List ChangedDocument)
  | [] => []
  | cd :: rest =>
    match groupByCollection rest with
    | [] => [(cd.collection, [cd])]
    | (c, g) :: gs =>
      if cd.collection = c then (c, cd :: g) :: gs
      else (cd.collection, [cd]) :: (c, g) :: gs

namespace Database

/-- The innermost loop of the invalidation phase: insert each changed
document's 8-byte big-endian id into the `invalidated` tree of the view
named `n` (with the empty value, as `IVec::default()`). -/
def invalidateDocsForView (n : String) (cds : List ChangedDocument)
    (st : DbState) : DbState :=
  cds.foldl
    (fun st cd =>
      st.setViewTrees n
        { st.viewTrees n with
          invalidated := Tree.insert (st.viewTrees n).invalidated (be8 cd.id) () })
    st

/-- The view loop of the invalidation phase: for each view of the group's
collection, when the view is not unique, insert every changed document of
the group into its `invalidated` tree. -/
def invalidateGroupForViews (views : List ViewDef) (cds : List ChangedDocument)
    (st : DbState) : DbState :=
  views.foldl
    (fun st v => if !v.unique then invalidateDocsForView v.name cds st else st)
    st

/-- The invalidation phase of `apply_transaction`: for each consecutive
collection group of changed documents, for each non-unique view of that
collection, insert every changed document id into the view's `invalidated`
tree. -/
def insertInvalidations (schema : Schematic) (s : DbState)
    (changed : List ChangedDocument) : DbState :=
  (groupByCollection changed).foldl
    (fun st group =>
      invalidateGroupForViews (schema.viewsInCollection group.1) group.2 st)
    s

/-- The state after the post-execution phases of `apply_transaction`: seed
view invalidations from the changed documents, then generate the log id and
append exactly one serialized `Executed` record under `id.to_be_bytes()`. -/
def commitState (schema : Schematic) (s1 : DbState) (results : List OperationResult) :
    DbState :=
  let changed := changedDocumentsOf results
  let s2 := insertInvalidations schema s1 changed
  let id := s2.txLog.lastId + 1
  let executed : Executed := { id := id, changed_documents := changed }
  { s2 with txLog := { entries := Tree.insert s2.txLog.entries (be8 id) executed
                       lastId := id } }

/-- `Database::apply_transaction` (the body of the sled multi-tree
transaction): validate collections, execute the operations in order, seed
view invalidations from the changed documents, and append exactly one
transaction-log record under the 8-byte big-endian encoding of the freshly
generated log id. An error aborts the whole batch. -/
def applyTransaction (schema : Schematic) (db : DbState) (tx : Transaction) :
    Except DbError (List OperationResult × DbState) :=
  if tx.operations.all (fun op => schema.containsCollectionId op.collection) then
    match executeOperations schema db tx.operations with
    | .error e => .error e
    | .ok (results, s1) => .ok (results, commitState schema s1 results)
  else .error DbError.collectionNotFound

/-- The database state visible after an `apply_transaction` call: the new
state on commit; on abort, sled rolls back every participating tree, so the
state is unchanged (spec §4.A, §4.D failure semantics). -/
def applyTransactionState (schema : Schematic) (db : DbState) (tx : Transaction) : DbState :=
  match applyTransaction schema db tx with
  | .ok (_, s) => s
  | .error _ => db

/-- The operation results of a committed `apply_transaction` call (the empty
list when the transaction aborted). -/
def applyTransactionResults (schema : Schematic) (db : DbState) (tx : Transaction) :
    List OperationResult :=
  match applyTransaction schema db tx with
  | .ok (results, _) => results
  | .error _ => []

end Database

end BonsaiDb

namespace BonsaiDb

/-- A key selector for view queries (`connection::QueryKey`), over serialized
big-endian key bytes. -/
inductive QueryKey (α : Type) where
  | range (start stop : α)
  | matches (key : α)
  | multiple (keys : List α)
deriving DecidableEq, Repr

/-- A serialized view mapping returned by `OpenDatabase::query`
(`map::Serialized`). -/
structure SerializedMap where
  source : Nat
  key : Bytes
  value : Bytes
deriving DecidableEq, Repr

/-- A grouped-reduce row (`MappedValue` over serialized keys and values). -/
structure MappedValue where
  key : Bytes
  value : Bytes
deriving DecidableEq, Repr

/-- A query-with-docs row (`networking::MappedDocument`). -/
structure MappedDocument where
  key : Bytes
  value : Bytes
  source : Document
deriving DecidableEq, Repr

namespace Database

/-- `Database::create_view_iterator`: `None` is a full forward scan;
`Matches` a single point lookup; `Multiple` point lookups in caller order
with missing keys omitted; `Range` a bounded forward scan from the start key
(inclusive) to the end key (exclusive), rejected with
`RangeQueryNotSupported` when the view's keys are encryptable. -/
def createViewIterator (view_entries : Tree ViewEntry)
    (key : Option (QueryKey Bytes)) (view : ViewDef) :
    Except DbError (List ViewEntry) :=
  match key with
  | some (.range start stop) =>
    if view.keysAreEncryptable then .error .rangeQueryNotSupported
    else .ok ((Tree.range view_entries start stop).map Prod.snd)
  | some (.matches k) => .ok ([k].filterMap (Tree.get view_entries))
  | some (.multiple list) => .ok (list.filterMap (Tree.get view_entries))
  | none => .ok (view_entries.map Prod.snd)

/-- `OpenDatabase::query`: scan the matched view entries and flatten each
entry's mappings into serialized `(source, key, value)` rows. -/
def query (view_entries : Tree ViewEntry) (key : Option (QueryKey Bytes))
    (view : ViewDef) : Except DbError (List SerializedMap) :=
  (createViewIterator view_entries key view).map fun entries =>
    entries.flatMap fun entry =>
      entry.mappings.map fun mapping =>
        { source := mapping.source, key := entry.key, value := mapping.value }

/-- `Database::get_multiple_from_collection_id`: point-look up each id in
input order, keeping the documents that are found. -/
def getMultipleFromCollectionId (documents : Tree Document) :
    List Nat → List Document
  | [] => []
  | id :: rest =>
    match Tree.get documents (be8 id) with
    | some doc => doc :: getMultipleFromCollectionId documents rest
    | none => getMultipleFromCollectionId documents rest

end Database

/-- First-match lookup in the id-keyed document map (`HashMap::get`). -/
def docMapGet : List (Nat × Document) → Nat → Option Document
  | [], _ => none
  | (i, d) :: rest, id => if id = i then some d else docMapGet rest id

/-- Insert into the id-keyed document map, replacing any previous binding
(`HashMap::insert` semantics used by `collect`). -/
def docMapInsert (m : List (Nat × Document)) (id : Nat) (doc : Document) :
    List (Nat × Document) :=
  (id, doc) :: m.filter (fun p => !(p.1 == id))

/-- Remove from the id-keyed document map (`HashMap::remove`). -/
def docMapRemove (m : List (Nat × Document)) (id : Nat) : List (Nat × Document) :=
  m.filter (fun p => !(p.1 == id))

/-- The `filter_map` joining query mappings with their fetched documents in
`query_with_docs`: each mapping takes (and removes) its source document from
the map; mappings whose source is no longer present are dropped. -/
def consumeMappedDocuments :
    List SerializedMap → List (Nat × Document) → List MappedDocument
  | [], _ => []
  | m :: rest, documentsMap =>
    match docMapGet documentsMap m.source with
    | some doc =>
      { key := m.key, value := m.value, source := doc } ::
        consumeMappedDocuments rest (docMapRemove documentsMap m.source)
    | none => consumeMappedDocuments rest documentsMap

namespace Database

/-- `OpenDatabase::query_with_docs`: run the query, fetch the source
documents with `get_multiple`, index them by id, and join mappings to
documents in mapping order. -/
def queryWithDocs (view_entries : Tree ViewEntry) (key : Option (QueryKey Bytes))
    (view : ViewDef) (documents : Tree Document) :
    Except DbError (List MappedDocument) :=
  match query view_entries key view with
  | .error e => .error e
  | .ok results =>
    let docs := getMultipleFromCollectionId documents (results.map (·.source))
    let documentsMap := docs.foldl (fun m doc => docMapInsert m doc.header.id doc) []
    .ok (consumeMappedDocuments results documentsMap)

/-- `Database::grouped_reduce_in_view`: one `(key, reduced_value)` row per
matched view entry. -/
def groupedReduceInView (view_entries : Tree ViewEntry)
    (key : Option (QueryKey Bytes)) (view : ViewDef) :
    Except DbError (List MappedValue) :=
  (createViewIterator view_entries key view).map fun entries =>
    entries.map fun entry => { key := entry.key, value := entry.reduced_value }

/-- `Database::reduce_in_view`: when the grouped reduction yields exactly one
row, return its stored reduced value verbatim; otherwise run the view's
reduce over all matched `(key, reduced_value)` pairs with `rereduce =
true`. -/
def reduceInView (view_entries : Tree ViewEntry) (key : Option (QueryKey Bytes))
    (view : ViewDef) : Except DbError Bytes :=
  (groupedReduceInView view_entries key view).map fun mappings =>
    if mappings.length = 1 then
      ((mappings.getLast?).getD { key := [], value := [] }).value
    else
      view.reduceFn (mappings.map fun m => (m.key, m.value)) true

end Database

/-- Modelled from the spec: `limits::LIST_TRANSACTIONS_DEFAULT_RESULT_COUNT`
(not under `src/`); "default result limit 1000" (spec §6 constants). -/
def LIST_TRANSACTIONS_DEFAULT_RESULT_COUNT : Nat := 1000

/-- Modelled from the spec: `limits::LIST_TRANSACTIONS_MAX_RESULTS` (not
under `src/`); "hard ceiling 1000" (spec §6 constants). -/
def LIST_TRANSACTIONS_MAX_RESULTS : Nat := 1000

/-- The collection loop of `list_executed_transactions`: push each row, and
break once the accumulated length reaches the limit (`result_limit` is the
remaining capacity; it is positive at every call). -/
def collectTransactions (result_limit : Nat) : List Executed → List Executed
  | [] => []
  | row :: rest =>
    if result_limit ≤ 1 then [row]
    else row :: collectTransactions (result_limit - 1) rest

namespace Database

/-- `Connection::list_executed_transactions`: clamp the limit to the default
and ceiling, return an empty result for a zero limit, and otherwise scan the
transaction tree (from the starting id when given, inclusive at both range
ends) collecting at most `result_limit` records. -/
def listExecutedTransactions (txLog : TxLog) (starting_id : Option Nat)
    (result_limit : Option Nat) : Except DbError (List Executed) :=
  let result_limit :=
    min (result_limit.getD LIST_TRANSACTIONS_DEFAULT_RESULT_COUNT)
      LIST_TRANSACTIONS_MAX_RESULTS
  if result_limit > 0 then
    let rows :=
      match starting_id with
      | some starting_id =>
        Tree.rangeIncl txLog.entries (be8 starting_id) (be8 (2 ^ 64 - 1))
      | none => txLog.entries
    .ok (collectTransactions result_limit (rows.map Prod.snd))
  else .ok []

end Database

/-- `database_topic` from `src/crates/bonsaidb-core/src/pubsub.rs`: the
database name's bytes, a single `0x00` byte, then the user topic bytes. -/
def database_topic (database : Bytes) (topic : Bytes) : Bytes :=
  database ++ [0] ++ topic

/-- A pub/sub message (`circulate::Message`). -/
structure Message where
  topic : Bytes
  payload : Bytes
deriving DecidableEq, Repr

/-- Modelled from the spec: the circulate relay's subscription registry
(external crate; spec §4.G): which `(subscriber id, topic bytes)` pairs are
subscribed. -/
structure Relay where
  subscriptions : List (Nat × Bytes)
deriving DecidableEq, Repr

/-- Modelled from the spec: `Relay::subscribe_to` registers the subscriber
for the topic (a set: re-subscribing is a no-op). -/
def Relay.subscribeTo (r : Relay) (subscriber_id : Nat) (topic : Bytes) : Relay :=
  if r.subscriptions.contains (subscriber_id, topic) then r
  else { subscriptions := (subscriber_id, topic) :: r.subscriptions }

/-- Modelled from the spec: `Relay::publish` delivers a `Message {topic,
payload}` to every subscriber currently subscribed to exactly those topic
bytes (spec §4.G). -/
def Relay.publishRaw (r : Relay) (topic payload : Bytes) : List (Nat × Message) :=
  (r.subscriptions.filter (fun sub => sub.2 == topic)).map
    (fun sub => (sub.1, { topic := topic, payload := payload }))

/-- `hosted::Subscriber::subscribe_to`: subscribe under the
database-namespaced topic. -/
def Subscriber.subscribeTo (database_name : Bytes) (r : Relay)
    (subscriber_id : Nat) (topic : Bytes) : Relay :=
  r.subscribeTo subscriber_id (database_topic database_name topic)

/-- `hosted::Database::publish`: publish under the database-namespaced
topic. -/
def Database.publish (database_name : Bytes) (r : Relay)
    (topic payload : Bytes) : List (Nat × Message) :=
  r.publishRaw (database_topic database_name topic) payload

end BonsaiDb

namespace BonsaiDb

/-- Insert a list of changed documents' big-endian-encoded ids into a set
tree, in order (the net effect of the invalidation loops on one tree). -/
def insertIdsInto (t : Tree Unit) (cds : List ChangedDocument) : Tree Unit :=
  cds.foldl (fun t cd => Tree.insert t (be8 cd.id) ()) t

/-- The changed documents belonging to collection `c`, concatenated over the
groups that carry key `c`, in group order. -/
def selectedDocs (c : String) :
    List (String × List ChangedDocument) → List ChangedDocument
  | [] => []
  | g :: gs => if g.1 = c then g.2 ++ selectedDocs c gs else selectedDocs c gs

/-- The document-existence and revision checks an `Update` or `Delete`
operation performs against the state it executes in: an absent target id
yields `DocumentNotFound`; an existing document whose stored revision
(update) or whole stored header (delete) differs from the supplied one
yields `DocumentConflict`; otherwise (and for `Insert`) no abort arises from
these checks. -/
def documentCheckAbort (s : DbState) (op : Operation) : Option DbError :=
  match op.command with
  | .update header _ =>
    match Tree.get (s.collections op.collection).documents (be8 header.id) with
    | none => some (.documentNotFound op.collection header.id)
    | some doc =>
      if doc.header.revision = header.revision then none
      else some (.documentConflict op.collection header.id)
  | .delete header =>
    match Tree.get (s.collections op.collection).documents (be8 header.id) with
    | none => some (.documentNotFound op.collection header.id)
    | some doc =>
      if doc.header = header then none
      else some (.documentConflict op.collection header.id)
  | .insert _ _ => none

/-- A collection tree is well formed when every record is stored under the
8-byte big-endian encoding of its document's id (how the engine always
writes them). -/
def collectionWellFormed (documents : Tree Document) : Prop :=
  ∀ kv ∈ documents, kv.1 = be8 kv.2.header.id

/-- The transaction log is well formed when its keys are exactly the 8-byte
big-endian encodings of `1, 2, …, lastId` in order: the log ids committed so
far are strictly increasing and gap-free, and the id generator sits at the
highest of them. -/
def TxLogWellFormed (s : DbState) : Prop :=
  Tree.keys s.txLog.entries = (List.range' 1 s.txLog.lastId).map be8

/-- A non-unique fixture view over the fixture collection. -/
def sampleViewByName : ViewDef :=
  { name := "a.by-name", collection := "a.people", unique := false
    keysAreEncryptable := false
    mapFn := fun d => [(d.contents, [1])]
    reduceFn := fun ps _ => ps.flatMap Prod.snd }

/-- A unique fixture view over the fixture collection. -/
def sampleViewByEmail : ViewDef :=
  { name := "a.by-email", collection := "a.people", unique := true
    keysAreEncryptable := false
    mapFn := fun d => [(d.contents, [1])]
    reduceFn := fun ps _ => ps.flatMap Prod.snd }

/-- A one-collection, two-view fixture schema used to instantiate the
theorems at concrete inputs. -/
def sampleSchema : Schematic :=
  { collections := ["a.people"]
    views := [sampleViewByName, sampleViewByEmail]
    encryptionKeyForCollection := fun _ => none }

/-- The empty database state for the fixture schema. -/
def emptyDbState : DbState :=
  { collections := fun _ => { documents := [], lastId := 0 }
    viewTrees := fun _ => { entries := [], documentMap := [], omitted := [], invalidated := [] }
    txLog := { entries := [], lastId := 0 } }

/-- A fixture transaction: insert one document with contents `[7]` into
`a.people`. -/
def sampleTx : Transaction :=
  ⟨[{ collection := "a.people", command := .insert [7] none }]⟩

/-- The fixture state after committing `sampleTx` on the empty state. -/
def sampleState1 : DbState :=
  Database.applyTransactionState sampleSchema emptyDbState sampleTx

/-- The document `sampleTx` inserts, as stored. -/
def sampleDoc1 : Document :=
  { header := { id := 1, revision := { generation := 1, sha256 := [7] }
                encryption_key := none }
    contents := [7] }

end BonsaiDb


namespace BonsaiDb

theorem lexLt_irrefl (a : Bytes) : lexLt a a = false := by
  induction a with
  | nil => rfl
  | cons x xs ih => simp [lexLt, ih]

theorem lexLt_asymm : ∀ {a b : Bytes}, lexLt a b = true → lexLt b a = false
  | [], [], h => by simp [lexLt] at h
  | [], _ :: _, _ => rfl
  | _ :: _, [], h => by simp [lexLt] at h
  | a :: as, b :: bs, h => by
    by_cases hab : a < b
    · simp [lexLt, hab, Nat.not_lt_of_lt hab, Nat.ne_of_gt hab]
    · by_cases hba : b < a
      · simp [lexLt, hab, hba] at h
      · have : a = b := Nat.le_antisymm (Nat.le_of_not_lt hba) (Nat.le_of_not_lt hab)
        subst this
        simp [lexLt, lexLt_irrefl] at h ⊢
        exact lexLt_asymm h

theorem lexLt_trans : ∀ {a b c : Bytes},
    lexLt a b = true → lexLt b c = true → lexLt a c = true
  | [], [], _, h, _ => by simp [lexLt] at h
  | [], _ :: _, [], _, h => by simp [lexLt] at h
  | [], _ :: _, _ :: _, _, _ => rfl
  | _ :: _, [], _, h, _ => by simp [lexLt] at h
  | _ :: _, _ :: _, [], _, h => by simp [lexLt] at h
  | a :: as, b :: bs, c :: cs, h1, h2 => by
    simp only [lexLt] at h1 h2 ⊢
    by_cases hab : a < b
    · by_cases hbc : b < c
      · have hac : a < c := Nat.lt_trans hab hbc
        simp [hac]
      · by_cases hcb : c < b
        · simp [hab, hbc, hcb] at h2
        · have : b = c := Nat.le_antisymm (Nat.le_of_not_lt hcb) (Nat.le_of_not_lt hbc)
          subst this
          simp [hab]
    · by_cases hba : b < a
      · simp [hab, hba] at h1
      · have : a = b := Nat.le_antisymm (Nat.le_of_not_lt hba) (Nat.le_of_not_lt hab)
        subst this
        by_cases hbc : a < c
        · simp [hbc]
        · by_cases hcb : c < a
          · simp [hbc, hcb] at h2
          · have : a = c := Nat.le_antisymm (Nat.le_of_not_lt hcb) (Nat.le_of_not_lt hbc)
            subst this
            simp [lexLt_irrefl] at h1 h2 ⊢
            exact lexLt_trans h1 h2

theorem eq_of_not_lexLt {a b : Bytes}
    (h1 : lexLt a b = false) (h2 : lexLt b a = false) : a = b := by
  induction a generalizing b with
  | nil => cases b with
    | nil => rfl
    | cons y ys => simp [lexLt] at h1
  | cons x xs ih =>
    cases b with
    | nil => simp [lexLt] at h2
    | cons y ys =>
      by_cases hxy : x < y
      · simp [lexLt, hxy] at h1
      · by_cases hyx : y < x
        · simp [lexLt, hyx, Nat.not_lt_of_lt hyx] at h2
        · have hxy' : x = y := Nat.le_antisymm (Nat.le_of_not_lt hyx) (Nat.le_of_not_lt hxy)
          subst hxy'
          simp only [lexLt, lt_irrefl, if_false] at h1 h2
          rw [ih h1 h2]

instance lexLtTrans : IsTrans Bytes (fun a b => lexLt a b = true) :=
  ⟨fun _ _ _ => lexLt_trans⟩

theorem natToBeBytes_length (k n : Nat) : (natToBeBytes k n).length = k := by
  induction k generalizing n with
  | zero => rfl
  | succ k ih => simp [natToBeBytes, ih]

theorem lexLt_append_same : ∀ (x u v : Bytes), lexLt (x ++ u) (x ++ v) = lexLt u v := by
  intro x
  induction x with
  | nil => intro u v; rfl
  | cons a as ih => intro u v; simp [lexLt, ih]

theorem lexLt_append_of_lexLt : ∀ {x y : Bytes}, x.length = y.length →
    lexLt x y = true → ∀ (u v : Bytes), lexLt (x ++ u) (y ++ v) = true
  | [], [], _, h, _, _ => by simp [lexLt] at h
  | [], _ :: _, hlen, _, _, _ => by simp at hlen
  | _ :: _, [], hlen, _, _, _ => by simp at hlen
  | a :: as, b :: bs, hlen, h, u, v => by
    simp only [lexLt] at h ⊢
    by_cases hab : a < b
    · simp [hab]
    · by_cases hba : b < a
      · simp [hab, hba] at h
      · have : a = b := Nat.le_antisymm (Nat.le_of_not_lt hba) (Nat.le_of_not_lt hab)
        subst this
        simp only [lt_irrefl, if_false] at h ⊢
        exact lexLt_append_of_lexLt (by simpa using hlen) h u v

theorem natToBeBytes_lexLt {k a b : Nat} (hab : a < b) (hb : b < 256 ^ k) :
    lexLt (natToBeBytes k a) (natToBeBytes k b) = true := by
  induction k generalizing a b with
  | zero => omega
  | succ k ih =>
    simp only [natToBeBytes]
    rcases Nat.lt_or_ge (a / 256) (b / 256) with hdiv | hdiv
    · refine lexLt_append_of_lexLt
        (by rw [natToBeBytes_length, natToBeBytes_length])
        (ih hdiv ?_) _ _
      have hb' : b < 256 * 256 ^ k := by rw [pow_succ] at hb; omega
      exact Nat.div_lt_of_lt_mul hb'
    · have hdiv' : a / 256 = b / 256 := by
        have : a / 256 ≤ b / 256 := Nat.div_le_div_right (Nat.le_of_lt hab)
        omega
      rw [hdiv', lexLt_append_same]
      have hmod : a % 256 < b % 256 := by
        have ha' : 256 * (a / 256) + a % 256 = a := Nat.div_add_mod a 256
        have hb' : 256 * (b / 256) + b % 256 = b := Nat.div_add_mod b 256
        omega
      simp [lexLt, hmod]

theorem be8_lexLt {a b : Nat} (hab : a < b) (hb : b < 2 ^ 64) :
    lexLt (be8 a) (be8 b) = true := by
  have ha64 : a % 2 ^ 64 = a := Nat.mod_eq_of_lt (lt_trans hab hb)
  have hb64 : b % 2 ^ 64 = b := Nat.mod_eq_of_lt hb
  unfold be8
  rw [ha64, hb64]
  exact natToBeBytes_lexLt hab (by norm_num at hb ⊢; omega)

theorem be8_ne {a b : Nat} (hab : a < b) (hb : b < 2 ^ 64) : be8 a ≠ be8 b := by
  intro h
  have := be8_lexLt hab hb
  rw [h, lexLt_irrefl] at this
  exact Bool.false_ne_true this

theorem Tree.get_insert_self {α : Type} (t : Tree α) (k : Bytes) (v : α) :
    Tree.get (Tree.insert t k v) k = some v := by
  induction t with
  | nil => simp [Tree.insert, Tree.get]
  | cons hd tl ih =>
    obtain ⟨k', v'⟩ := hd
    by_cases h1 : lexLt k k'
    · simp [Tree.insert, h1, Tree.get]
    · by_cases h2 : k = k'
      · simp [Tree.insert, h1, h2, Tree.get, lexLt_irrefl]
      · simp [Tree.insert, h1, h2, Tree.get, ih]

theorem Tree.get_insert_ne {α : Type} (t : Tree α) (k k' : Bytes) (v : α) (h : k' ≠ k) :
    Tree.get (Tree.insert t k v) k' = Tree.get t k' := by
  induction t with
  | nil => simp [Tree.insert, Tree.get, h]
  | cons hd tl ih =>
    obtain ⟨k0, v0⟩ := hd
    by_cases h1 : lexLt k k0
    · simp [Tree.insert, h1, Tree.get, h]
    · by_cases h2 : k = k0
      · subst h2
        simp [Tree.insert, h1, Tree.get, h]
      · by_cases h3 : k' = k0
        · simp [Tree.insert, h1, h2, Tree.get, h3]
        · simp [Tree.insert, h1, h2, Tree.get, h3, ih]

theorem Tree.mem_keys_of_get {α : Type} {t : Tree α} {k : Bytes} {v : α}
    (h : Tree.get t k = some v) : k ∈ Tree.keys t := by
  induction t with
  | nil => simp [Tree.get] at h
  | cons hd tl ih =>
    obtain ⟨k0, v0⟩ := hd
    by_cases h2 : k = k0
    · simp [Tree.keys, h2]
    · simp only [Tree.get, h2, if_false, ite_false] at h
      simp [Tree.keys] at ih ⊢
      exact Or.inr (ih h)

theorem Tree.sortedKeys_tail {α : Type} {hd : Bytes × α} {tl : Tree α}
    (hs : Tree.SortedKeys (hd :: tl)) : Tree.SortedKeys tl := by
  unfold Tree.SortedKeys Tree.keys at hs ⊢
  simp only [List.map_cons] at hs
  exact (List.chain'_cons'.mp hs).2

theorem Tree.sortedKeys_head_lt {α : Type} {k0 : Bytes} {v0 : α} {tl : Tree α}
    (hs : Tree.SortedKeys ((k0, v0) :: tl)) :
    ∀ k ∈ Tree.keys tl, lexLt k0 k = true := by
  unfold Tree.SortedKeys Tree.keys at hs
  simp only [List.map_cons] at hs
  have hpair := List.chain'_iff_pairwise.mp hs
  exact (List.pairwise_cons.mp hpair).1

/-- Inserting a key bound to the value it already has is a no-op. -/
theorem Tree.insert_eq_self_of_get {α : Type} (t : Tree α) (k : Bytes) (v : α)
    (hs : Tree.SortedKeys t) (h : Tree.get t k = some v) : Tree.insert t k v = t := by
  induction t with
  | nil => simp [Tree.get] at h
  | cons hd tl ih =>
    obtain ⟨k0, v0⟩ := hd
    by_cases h2 : k = k0
    · subst h2
      have h' : v0 = v := by simpa [Tree.get] using h
      subst h'
      simp [Tree.insert, lexLt_irrefl]
    · have hget : Tree.get tl k = some v := by simpa [Tree.get, h2] using h
      have hk0lt : lexLt k0 k = true :=
        Tree.sortedKeys_head_lt hs k (Tree.mem_keys_of_get hget)
      have h1 : lexLt k k0 = false := lexLt_asymm hk0lt
      simp only [Tree.insert, h1, h2, Bool.false_eq_true, if_false, ite_false]
      rw [ih (Tree.sortedKeys_tail hs) hget]

/-- Inserting a key strictly above every existing key appends at the end. -/
theorem Tree.insert_append_of_gt {α : Type} (t : Tree α) (k : Bytes) (v : α)
    (h : ∀ k' ∈ Tree.keys t, lexLt k' k = true) : Tree.insert t k v = t ++ [(k, v)] := by
  induction t with
  | nil => simp [Tree.insert]
  | cons hd tl ih =>
    obtain ⟨k0, v0⟩ := hd
    have hk0 : lexLt k0 k = true := h k0 (by simp [Tree.keys])
    have h1 : lexLt k k0 = false := lexLt_asymm hk0
    have h2 : k ≠ k0 := by
      intro heq
      subst heq
      rw [lexLt_irrefl] at hk0
      exact Bool.false_ne_true hk0
    simp only [Tree.insert, h1, h2, Bool.false_eq_true, if_false, ite_false, List.cons_append]
    rw [ih]
    intro k' hk'
    exact h k' (by simp [Tree.keys] at hk' ⊢; exact Or.inr hk')

end BonsaiDb

namespace BonsaiDb

theorem exceptBind_ok {ε α β : Type} (a : α) (f : α → Except ε β) :
    (Except.ok a : Except ε α) >>= f = f a := rfl

theorem exceptBind_error {ε α β : Type} (e : ε) (f : α → Except ε β) :
    (Except.error e : Except ε α) >>= f = Except.error e := rfl

theorem DocumentRequest.map_ok_invalidated {v : ViewDef} {documents : Tree Document}
    {docId : Nat} {vt vt' : ViewTrees}
    (h : DocumentRequest.map v documents docId vt = .ok vt') :
    vt'.invalidated = vt.invalidated := by
  unfold DocumentRequest.map at h
  dsimp only at h
  split at h
  · exact absurd h (by simp)
  · simp only [Except.ok.injEq] at h
    subst h
    rfl

theorem updateUniqueViews_ok_pres {schema : Schematic} {s s' : DbState}
    {collection : String} {docId : Nat}
    (h : Database.updateUniqueViews schema s collection docId = .ok s') :
    s'.txLog = s.txLog ∧ s'.collections = s.collections ∧
      ∀ n, (s'.viewTrees n).invalidated = (s.viewTrees n).invalidated := by
  unfold Database.updateUniqueViews at h
  generalize hvs : schema.uniqueViewsInCollection collection = vs at h
  clear hvs
  induction vs generalizing s with
  | nil =>
    simp only [List.foldlM_nil] at h
    have : s = s' := by
      have : (pure s : Except DbError DbState) = .ok s := rfl
      rw [this] at h
      exact Except.ok.inj h
    subst this
    exact ⟨rfl, rfl, fun _ => rfl⟩
  | cons v vs ih =>
    rw [List.foldlM_cons] at h
    cases hm : DocumentRequest.map v ((s.collections collection)).documents docId
        (s.viewTrees v.name) with
    | error e =>
      rw [hm] at h
      rw [exceptBind_error] at h
      exact absurd h (by simp)
    | ok vt =>
      rw [hm] at h
      rw [exceptBind_ok] at h
      obtain ⟨h1, h2, h3⟩ := ih h
      refine ⟨h1, h2, fun n => ?_⟩
      have hslot : ((s.setViewTrees v.name vt).viewTrees n).invalidated =
          (s.viewTrees n).invalidated := by
        by_cases hn : n = v.name
        · subst hn
          simp only [DbState.setViewTrees, if_pos rfl]
          exact DocumentRequest.map_ok_invalidated hm
        · simp [DbState.setViewTrees, hn]
      rw [h3 n, hslot]

end BonsaiDb

namespace BonsaiDb

theorem executeInsert_ok_pres {schema : Schematic} {s s' : DbState} {collection : String}
    {contents : Bytes} {ek : Option String} {r : OperationResult}
    (h : Database.executeInsert schema s collection contents ek = .ok (r, s')) :
    s'.txLog = s.txLog ∧ ∀ n, (s'.viewTrees n).invalidated = (s.viewTrees n).invalidated := by
  unfold Database.executeInsert at h
  dsimp only at h
  split at h
  · exact absurd h (by simp)
  · rename_i s2 hm
    simp only [Except.ok.injEq, Prod.mk.injEq] at h
    obtain ⟨-, hs⟩ := h
    subst hs
    obtain ⟨h1, -, h3⟩ := updateUniqueViews_ok_pres hm
    exact ⟨h1, fun n => h3 n⟩

theorem executeUpdate_ok_pres {schema : Schematic} {s s' : DbState} {collection : String}
    {header : Header} {contents : Bytes} {r : OperationResult}
    (h : Database.executeUpdate schema s collection header contents = .ok (r, s')) :
    s'.txLog = s.txLog ∧ ∀ n, (s'.viewTrees n).invalidated = (s.viewTrees n).invalidated := by
  unfold Database.executeUpdate at h
  dsimp only at h
  split at h
  · rename_i doc hget
    split at h
    · rename_i hrev
      split at h
      · rename_i updated hnew
        split at h
        · exact absurd h (by simp)
        · rename_i s2 hm
          simp only [Except.ok.injEq, Prod.mk.injEq] at h
          obtain ⟨-, hs⟩ := h
          subst hs
          obtain ⟨h1, -, h3⟩ := updateUniqueViews_ok_pres hm
          exact ⟨h1, fun n => h3 n⟩
      · simp only [Except.ok.injEq, Prod.mk.injEq] at h
        obtain ⟨-, hs⟩ := h
        subst hs
        exact ⟨rfl, fun _ => rfl⟩
    · exact absurd h (by simp)
  · exact absurd h (by simp)

theorem executeDelete_ok_pres {schema : Schematic} {s s' : DbState} {collection : String}
    {header : Header} {r : OperationResult}
    (h : Database.executeDelete schema s collection header = .ok (r, s')) :
    s'.txLog = s.txLog ∧ ∀ n, (s'.viewTrees n).invalidated = (s.viewTrees n).invalidated := by
  unfold Database.executeDelete at h
  dsimp only at h
  split at h
  · rename_i doc hget
    split at h
    · split at h
      · exact absurd h (by simp)
      · rename_i s2 hm
        simp only [Except.ok.injEq, Prod.mk.injEq] at h
        obtain ⟨-, hs⟩ := h
        subst hs
        obtain ⟨h1, -, h3⟩ := updateUniqueViews_ok_pres hm
        exact ⟨h1, fun n => h3 n⟩
    · exact absurd h (by simp)
  · exact absurd h (by simp)

theorem executeOperation_ok_pres {schema : Schematic} {s s' : DbState} {op : Operation}
    {r : OperationResult}
    (h : Database.executeOperation schema s op = .ok (r, s')) :
    s'.txLog = s.txLog ∧ ∀ n, (s'.viewTrees n).invalidated = (s.viewTrees n).invalidated := by
  unfold Database.executeOperation at h
  split at h
  · exact executeInsert_ok_pres h
  · exact executeUpdate_ok_pres h
  · exact executeDelete_ok_pres h

theorem executeOperations_ok_pres {schema : Schematic} {s s' : DbState}
    {ops : List Operation} {rs : List OperationResult}
    (h : Database.executeOperations schema s ops = .ok (rs, s')) :
    s'.txLog = s.txLog ∧ ∀ n, (s'.viewTrees n).invalidated = (s.viewTrees n).invalidated := by
  induction ops generalizing s rs with
  | nil =>
    unfold Database.executeOperations at h
    simp only [Except.ok.injEq, Prod.mk.injEq] at h
    obtain ⟨-, hs⟩ := h
    subst hs
    exact ⟨rfl, fun _ => rfl⟩
  | cons op rest ih =>
    unfold Database.executeOperations at h
    split at h
    · exact absurd h (by simp)
    · rename_i r1 s1 hop
      split at h
      · exact absurd h (by simp)
      · rename_i rs1 s2 hops
        simp only [Except.ok.injEq, Prod.mk.injEq] at h
        obtain ⟨-, hs⟩ := h
        subst hs
        obtain ⟨ha1, ha3⟩ := executeOperation_ok_pres hop
        obtain ⟨hb1, hb3⟩ := ih hops
        exact ⟨hb1.trans ha1, fun n => (hb3 n).trans (ha3 n)⟩

theorem executeOperations_append_error {schema : Schematic} {db s : DbState}
    {pre rest : List Operation} {rs : List OperationResult} {e : DbError}
    (hpre : Database.executeOperations schema db pre = .ok (rs, s))
    (hrest : Database.executeOperations schema s rest = .error e) :
    Database.executeOperations schema db (pre ++ rest) = .error e := by
  induction pre generalizing db rs with
  | nil =>
    unfold Database.executeOperations at hpre
    simp only [Except.ok.injEq, Prod.mk.injEq] at hpre
    obtain ⟨-, hs⟩ := hpre
    subst hs
    simpa using hrest
  | cons op pre' ih =>
    unfold Database.executeOperations at hpre
    split at hpre
    · exact absurd hpre (by simp)
    · rename_i r1 s1 hop
      split at hpre
      · exact absurd hpre (by simp)
      · rename_i rs1 s2 hops
        simp only [Except.ok.injEq, Prod.mk.injEq] at hpre
        obtain ⟨-, hs⟩ := hpre
        subst hs
        show Database.executeOperations schema db (op :: (pre' ++ rest)) = .error e
        unfold Database.executeOperations
        rw [hop]
        dsimp only
        rw [ih hops]

end BonsaiDb

namespace BonsaiDb

theorem insertIdsInto_append (t : Tree Unit) (a b : List ChangedDocument) :
    insertIdsInto t (a ++ b) = insertIdsInto (insertIdsInto t a) b := by
  unfold insertIdsInto
  rw [List.foldl_append]

theorem invalidateDocsForView_pres (n : String) (cds : List ChangedDocument) (st : DbState) :
    (Database.invalidateDocsForView n cds st).txLog = st.txLog ∧
    (Database.invalidateDocsForView n cds st).collections = st.collections ∧
    (∀ m, ((Database.invalidateDocsForView n cds st).viewTrees m).entries = (st.viewTrees m).entries ∧
      ((Database.invalidateDocsForView n cds st).viewTrees m).documentMap = (st.viewTrees m).documentMap ∧
      ((Database.invalidateDocsForView n cds st).viewTrees m).omitted = (st.viewTrees m).omitted) ∧
    (∀ m, m ≠ n →
      ((Database.invalidateDocsForView n cds st).viewTrees m).invalidated =
        (st.viewTrees m).invalidated) := by
  induction cds generalizing st with
  | nil => exact ⟨rfl, rfl, fun _ => ⟨rfl, rfl, rfl⟩, fun _ _ => rfl⟩
  | cons cd rest ih =>
    have hunfold : Database.invalidateDocsForView n (cd :: rest) st =
        Database.invalidateDocsForView n rest
          (st.setViewTrees n
            { st.viewTrees n with
              invalidated := Tree.insert (st.viewTrees n).invalidated (be8 cd.id) () }) := rfl
    rw [hunfold]
    obtain ⟨h1, h2, h3, h4⟩ := ih
      (st.setViewTrees n
        { st.viewTrees n with
          invalidated := Tree.insert (st.viewTrees n).invalidated (be8 cd.id) () })
    refine ⟨h1.trans rfl, h2.trans rfl, fun m => ?_, fun m hm => ?_⟩
    · obtain ⟨e1, e2, e3⟩ := h3 m
      by_cases hmn : m = n
      · subst hmn
        refine ⟨e1.trans ?_, e2.trans ?_, e3.trans ?_⟩ <;>
          simp [DbState.setViewTrees]
      · refine ⟨e1.trans ?_, e2.trans ?_, e3.trans ?_⟩ <;>
          simp [DbState.setViewTrees, hmn]
    · rw [h4 m hm]
      simp [DbState.setViewTrees, hm]

theorem invalidateDocsForView_inval_self (n : String) (cds : List ChangedDocument)
    (st : DbState) :
    ((Database.invalidateDocsForView n cds st).viewTrees n).invalidated =
      insertIdsInto ((st.viewTrees n).invalidated) cds := by
  induction cds generalizing st with
  | nil => rfl
  | cons cd rest ih =>
    have hunfold : Database.invalidateDocsForView n (cd :: rest) st =
        Database.invalidateDocsForView n rest
          (st.setViewTrees n
            { st.viewTrees n with
              invalidated := Tree.insert (st.viewTrees n).invalidated (be8 cd.id) () }) := rfl
    rw [hunfold, ih]
    have : ((st.setViewTrees n
        { st.viewTrees n with
          invalidated := Tree.insert (st.viewTrees n).invalidated (be8 cd.id) () }).viewTrees n).invalidated =
        Tree.insert ((st.viewTrees n).invalidated) (be8 cd.id) () := by
      simp [DbState.setViewTrees]
    rw [this]
    rfl

theorem invalidateGroupForViews_pres (views : List ViewDef) (cds : List ChangedDocument)
    (st : DbState) :
    (Database.invalidateGroupForViews views cds st).txLog = st.txLog ∧
    (Database.invalidateGroupForViews views cds st).collections = st.collections ∧
    (∀ m, ((Database.invalidateGroupForViews views cds st).viewTrees m).entries = (st.viewTrees m).entries ∧
      ((Database.invalidateGroupForViews views cds st).viewTrees m).documentMap = (st.viewTrees m).documentMap ∧
      ((Database.invalidateGroupForViews views cds st).viewTrees m).omitted = (st.viewTrees m).omitted) := by
  induction views generalizing st with
  | nil => exact ⟨rfl, rfl, fun _ => ⟨rfl, rfl, rfl⟩⟩
  | cons v vs ih =>
    have hunfold : Database.invalidateGroupForViews (v :: vs) cds st =
        Database.invalidateGroupForViews vs cds
          (if !v.unique then Database.invalidateDocsForView v.name cds st else st) := rfl
    rw [hunfold]
    cases hu : v.unique with
    | true =>
      simp only [hu, Bool.not_true, Bool.false_eq_true, if_false]
      exact ih st
    | false =>
      simp only [hu, Bool.not_false, if_true]
      obtain ⟨h1, h2, h3⟩ := ih (Database.invalidateDocsForView v.name cds st)
      obtain ⟨p1, p2, p3, -⟩ := invalidateDocsForView_pres v.name cds st
      refine ⟨h1.trans p1, h2.trans p2, fun m => ?_⟩
      obtain ⟨e1, e2, e3⟩ := h3 m
      obtain ⟨f1, f2, f3⟩ := p3 m
      exact ⟨e1.trans f1, e2.trans f2, e3.trans f3⟩

theorem invalidateGroupForViews_inval_other (views : List ViewDef)
    (cds : List ChangedDocument) (st : DbState) (n : String)
    (h : ∀ w ∈ views, w.name ≠ n) :
    ((Database.invalidateGroupForViews views cds st).viewTrees n).invalidated =
      (st.viewTrees n).invalidated := by
  induction views generalizing st with
  | nil => rfl
  | cons v vs ih =>
    have hunfold : Database.invalidateGroupForViews (v :: vs) cds st =
        Database.invalidateGroupForViews vs cds
          (if !v.unique then Database.invalidateDocsForView v.name cds st else st) := rfl
    rw [hunfold, ih _ (fun w hw => h w (List.mem_cons_of_mem _ hw))]
    by_cases hu : v.unique
    · simp [hu]
    · simp only [Bool.not_eq_true] at hu
      simp only [hu, Bool.not_false, if_true]
      exact (invalidateDocsForView_pres v.name cds st).2.2.2 n
        (fun heq => h v (List.mem_cons_self v vs) heq.symm)

end BonsaiDb

namespace BonsaiDb

theorem invalidateGroupForViews_inval_self (views : List ViewDef)
    (cds : List ChangedDocument) (v : ViewDef) : ∀ (st : DbState),
    (∀ w ∈ views, w.name = v.name → w = v) →
    ((views.map ViewDef.name).Nodup) →
    ((Database.invalidateGroupForViews views cds st).viewTrees v.name).invalidated =
      if (views.map ViewDef.name).contains v.name ∧ v.unique = false
      then insertIdsInto ((st.viewTrees v.name).invalidated) cds
      else (st.viewTrees v.name).invalidated := by
  induction views with
  | nil =>
    intro st _ _
    simp [Database.invalidateGroupForViews]
  | cons w ws ih =>
    intro st hother hnd
    have hunfold : Database.invalidateGroupForViews (w :: ws) cds st =
        Database.invalidateGroupForViews ws cds
          (if !w.unique then Database.invalidateDocsForView w.name cds st else st) := rfl
    rw [hunfold]
    by_cases hwname : w.name = v.name
    · have hweq : w = v := hother w (List.mem_cons_self w ws) hwname
      subst hweq
      have hnotin : ∀ w' ∈ ws, w'.name ≠ w.name := by
        intro w' hw' heq
        have hnin : w.name ∉ ws.map ViewDef.name := by
          simp only [List.map_cons, List.nodup_cons] at hnd
          exact hnd.1
        exact hnin (List.mem_map.mpr ⟨w', hw', heq⟩)
      have hgv := invalidateGroupForViews_inval_other ws cds
        (if !w.unique then Database.invalidateDocsForView w.name cds st else st) w.name hnotin
      rw [hgv]
      cases hu : w.unique with
      | true =>
        simp only [hu, Bool.not_true, Bool.false_eq_true, if_false]
        simp
      | false =>
        simp only [hu, Bool.not_false, if_true]
        rw [invalidateDocsForView_inval_self]
        have hc : ((w :: ws).map ViewDef.name).contains w.name = true := by simp
        simp [hc]
    · have hstep : ((if !w.unique then Database.invalidateDocsForView w.name cds st
          else st).viewTrees v.name).invalidated = (st.viewTrees v.name).invalidated := by
        cases hu : w.unique with
        | true => simp [hu]
        | false =>
          simp only [hu, Bool.not_false, if_true]
          exact (invalidateDocsForView_pres w.name cds st).2.2.2 v.name
            (fun h => hwname h.symm)
      have hnd' : (ws.map ViewDef.name).Nodup := by
        simp only [List.map_cons, List.nodup_cons] at hnd
        exact hnd.2
      rw [ih _ (fun w' hw' h => hother w' (List.mem_cons_of_mem _ hw') h) hnd', hstep]
      have hbeq : (v.name == w.name) = false :=
        beq_eq_false_iff_ne.mpr (fun h => hwname h.symm)
      have hcontains : ((w :: ws).map ViewDef.name).contains v.name =
          (ws.map ViewDef.name).contains v.name := by
        show (w.name :: ws.map ViewDef.name).contains v.name = _
        rw [List.contains_cons, hbeq, Bool.false_or]
      rw [hcontains]

theorem insertInvalidations_fold_inval (schema : Schematic) (v : ViewDef)
    (hv : v ∈ schema.views) (hnd : (schema.views.map ViewDef.name).Nodup) :
    ∀ (gs : List (String × List ChangedDocument)) (s : DbState),
    ((gs.foldl (fun st group => Database.invalidateGroupForViews
        (schema.viewsInCollection group.1) group.2 st) s).viewTrees v.name).invalidated =
      if v.unique = false
      then insertIdsInto ((s.viewTrees v.name).invalidated) (selectedDocs v.collection gs)
      else (s.viewTrees v.name).invalidated := by
  intro gs
  induction gs with
  | nil =>
    intro s
    cases hu : v.unique <;> simp [hu, selectedDocs, insertIdsInto]
  | cons g gs ih =>
    intro s
    have hother : ∀ w ∈ schema.viewsInCollection g.1, w.name = v.name → w = v := by
      intro w hw heq
      exact List.inj_on_of_nodup_map hnd (List.mem_of_mem_filter hw) hv heq
    have hndg : ((schema.viewsInCollection g.1).map ViewDef.name).Nodup :=
      List.Nodup.sublist ((List.filter_sublist schema.views).map ViewDef.name) hnd
    have hstep := invalidateGroupForViews_inval_self (schema.viewsInCollection g.1)
      g.2 v s hother hndg
    have hfold : (g :: gs).foldl (fun st group => Database.invalidateGroupForViews
        (schema.viewsInCollection group.1) group.2 st) s =
        gs.foldl (fun st group => Database.invalidateGroupForViews
          (schema.viewsInCollection group.1) group.2 st)
          (Database.invalidateGroupForViews (schema.viewsInCollection g.1) g.2 s) := rfl
    rw [hfold, ih _, hstep]
    cases hu : v.unique with
    | true => simp [hu]
    | false =>
      by_cases hc : g.1 = v.collection
      · have hvmem : v ∈ schema.viewsInCollection g.1 :=
          List.mem_filter.mpr ⟨hv, by simp [hc]⟩
        have hcont : ((schema.viewsInCollection g.1).map ViewDef.name).contains v.name = true := by
          have : v.name ∈ (schema.viewsInCollection g.1).map ViewDef.name :=
            List.mem_map.mpr ⟨v, hvmem, rfl⟩
          exact List.elem_iff.mpr this
        have hsel : selectedDocs v.collection (g :: gs) =
            g.2 ++ selectedDocs v.collection gs := by
          simp [selectedDocs, hc]
        rw [hcont, hsel]
        simp [insertIdsInto_append]
      · have hcont : ((schema.viewsInCollection g.1).map ViewDef.name).contains v.name = false := by
          by_contra hfalse
          have hcont' : ((schema.viewsInCollection g.1).map ViewDef.name).contains v.name = true := by
            cases hx : ((schema.viewsInCollection g.1).map ViewDef.name).contains v.name
            · exact absurd hx hfalse
            · rfl
          have hmem : v.name ∈ (schema.viewsInCollection g.1).map ViewDef.name :=
            List.elem_iff.mp hcont'
          obtain ⟨w, hw, hwn⟩ := List.mem_map.mp hmem
          have hwv : w = v := hother w hw hwn
          subst hwv
          have := (List.mem_filter.mp hw).2
          simp at this
          exact hc this.symm
        have hsel : selectedDocs v.collection (g :: gs) = selectedDocs v.collection gs := by
          simp [selectedDocs, hc]
        rw [hcont, hsel]
        simp

end BonsaiDb

namespace BonsaiDb

theorem groupByCollection_eq_nil {l : List ChangedDocument}
    (h : groupByCollection l = []) : l = [] := by
  cases l with
  | nil => rfl
  | cons cd rest =>
    exfalso
    unfold groupByCollection at h
    cases hgb : groupByCollection rest with
    | nil => rw [hgb] at h; simp at h
    | cons g gs =>
      rw [hgb] at h
      obtain ⟨c0, ds⟩ := g
      by_cases hcc : cd.collection = c0 <;> simp [hcc] at h

theorem selectedDocs_groupByCollection (c : String) (l : List ChangedDocument) :
    selectedDocs c (groupByCollection l) = l.filter (fun cd => cd.collection == c) := by
  induction l with
  | nil => rfl
  | cons cd rest ih =>
    rw [groupByCollection]
    cases hgb : groupByCollection rest with
    | nil =>
      have hrest : rest = [] := groupByCollection_eq_nil hgb
      subst hrest
      by_cases hcc : cd.collection = c <;> simp [selectedDocs, hcc]
    | cons g gs =>
      rw [hgb] at ih
      obtain ⟨c0, ds⟩ := g
      simp only [selectedDocs] at ih
      by_cases hc0 : cd.collection = c0
      · simp only [hc0, if_pos rfl]
        by_cases hcc : c0 = c
        · subst hcc
          simp only [selectedDocs, if_pos rfl]
          simp only [eq_self_iff_true, if_true] at ih
          simp [List.filter_cons, hc0, ih]
        · simp only [selectedDocs, if_neg hcc]
          simp only [if_neg hcc] at ih
          have hb : (cd.collection == c) = false := by
            rw [hc0]
            exact beq_eq_false_iff_ne.mpr hcc
          simp [List.filter_cons, hb, ih]
      · simp only [if_neg hc0]
        by_cases hcc : cd.collection = c
        · simp only [selectedDocs, if_pos hcc]
          simp [List.filter_cons, hcc, ih, selectedDocs]
        · simp only [selectedDocs, if_neg hcc]
          have hb : (cd.collection == c) = false := beq_eq_false_iff_ne.mpr hcc
          simp [List.filter_cons, hb, ih, selectedDocs]

theorem insertInvalidations_pres (schema : Schematic) (s : DbState)
    (changed : List ChangedDocument) :
    (Database.insertInvalidations schema s changed).txLog = s.txLog ∧
    (Database.insertInvalidations schema s changed).collections = s.collections ∧
    (∀ m, ((Database.insertInvalidations schema s changed).viewTrees m).entries =
        (s.viewTrees m).entries ∧
      ((Database.insertInvalidations schema s changed).viewTrees m).documentMap =
        (s.viewTrees m).documentMap ∧
      ((Database.insertInvalidations schema s changed).viewTrees m).omitted =
        (s.viewTrees m).omitted) := by
  unfold Database.insertInvalidations
  generalize groupByCollection changed = gs
  induction gs generalizing s with
  | nil => exact ⟨rfl, rfl, fun _ => ⟨rfl, rfl, rfl⟩⟩
  | cons g gs ih =>
    have hfold : (g :: gs).foldl (fun st group => Database.invalidateGroupForViews
        (schema.viewsInCollection group.1) group.2 st) s =
        gs.foldl (fun st group => Database.invalidateGroupForViews
          (schema.viewsInCollection group.1) group.2 st)
          (Database.invalidateGroupForViews (schema.viewsInCollection g.1) g.2 s) := rfl
    rw [hfold]
    obtain ⟨h1, h2, h3⟩ :=
      ih (s := Database.invalidateGroupForViews (schema.viewsInCollection g.1) g.2 s)
    obtain ⟨p1, p2, p3⟩ := invalidateGroupForViews_pres (schema.viewsInCollection g.1) g.2 s
    refine ⟨h1.trans p1, h2.trans p2, fun m => ?_⟩
    obtain ⟨e1, e2, e3⟩ := h3 m
    obtain ⟨f1, f2, f3⟩ := p3 m
    exact ⟨e1.trans f1, e2.trans f2, e3.trans f3⟩

theorem insertInvalidations_inval (schema : Schematic) (s : DbState)
    (changed : List ChangedDocument) (v : ViewDef)
    (hv : v ∈ schema.views) (hnd : (schema.views.map ViewDef.name).Nodup) :
    ((Database.insertInvalidations schema s changed).viewTrees v.name).invalidated =
      if v.unique = false
      then insertIdsInto ((s.viewTrees v.name).invalidated)
        (changed.filter (fun cd => cd.collection == v.collection))
      else (s.viewTrees v.name).invalidated := by
  unfold Database.insertInvalidations
  rw [insertInvalidations_fold_inval schema v hv hnd (groupByCollection changed) s,
    selectedDocs_groupByCollection]

end BonsaiDb

namespace BonsaiDb

theorem applyTransaction_ok_elim {schema : Schematic} {db : DbState} {tx : Transaction}
    {results : List OperationResult} {s' : DbState}
    (h : Database.applyTransaction schema db tx = .ok (results, s')) :
    ∃ s1, Database.executeOperations schema db tx.operations = .ok (results, s1) ∧
      s' = Database.commitState schema s1 results := by
  unfold Database.applyTransaction at h
  split at h
  · split at h
    · exact absurd h (by simp)
    · rename_i results1 s1 hexec
      simp only [Except.ok.injEq, Prod.mk.injEq] at h
      obtain ⟨hr, hs⟩ := h
      subst hr
      exact ⟨s1, hexec, hs.symm⟩
  · exact absurd h (by simp)

/-- C1: every committed `apply_transaction` call appends exactly one record
to the `{db}::transactions` tree, at the end, keyed by the 8-byte big-endian
encoding of its id; that id is the previous highest log id plus one, and the
log's ids stay strictly increasing and gap-free (`TxLogWellFormed`). -/
theorem txLog_append_of_commit (schema : Schematic) (db : DbState) (tx : Transaction)
    (hwf : TxLogWellFormed db) (hbound : db.txLog.lastId + 1 < 2 ^ 64)
    (hok : (Database.applyTransaction schema db tx).isOk = true) :
    (Database.applyTransactionState schema db tx).txLog.entries =
      db.txLog.entries ++ [(be8 (db.txLog.lastId + 1),
        { id := db.txLog.lastId + 1
          changed_documents :=
            changedDocumentsOf (Database.applyTransactionResults schema db tx) })] ∧
    (Database.applyTransactionState schema db tx).txLog.lastId = db.txLog.lastId + 1 ∧
    TxLogWellFormed (Database.applyTransactionState schema db tx) := by
  cases happ : Database.applyTransaction schema db tx with
  | error e => rw [happ] at hok; simp [Except.isOk, Except.toBool] at hok
  | ok p =>
    obtain ⟨results, s'⟩ := p
    obtain ⟨s1, hexec, hs'⟩ := applyTransaction_ok_elim happ
    have hstate : Database.applyTransactionState schema db tx = s' := by
      unfold Database.applyTransactionState
      rw [happ]
    have hresults : Database.applyTransactionResults schema db tx = results := by
      unfold Database.applyTransactionResults
      rw [happ]
    have htx2 : (Database.insertInvalidations schema s1 (changedDocumentsOf results)).txLog =
        db.txLog :=
      (insertInvalidations_pres schema s1 (changedDocumentsOf results)).1.trans
        (executeOperations_ok_pres hexec).1
    have hkeylt : ∀ k' ∈ Tree.keys db.txLog.entries,
        lexLt k' (be8 (db.txLog.lastId + 1)) = true := by
      intro k' hk'
      rw [hwf] at hk'
      obtain ⟨i, hi, rfl⟩ := List.mem_map.mp hk'
      obtain ⟨j, hj, hij⟩ := List.mem_range'.mp hi
      exact be8_lexLt (by omega) hbound
    have hins := Tree.insert_append_of_gt db.txLog.entries (be8 (db.txLog.lastId + 1))
      { id := db.txLog.lastId + 1, changed_documents := changedDocumentsOf results } hkeylt
    rw [hstate, hresults, hs']
    unfold Database.commitState
    dsimp only
    rw [htx2]
    refine ⟨hins, rfl, ?_⟩
    unfold TxLogWellFormed
    dsimp only
    rw [hins]
    unfold Tree.keys
    rw [List.map_append, List.map_singleton]
    show Tree.keys db.txLog.entries ++ [be8 (db.txLog.lastId + 1)] = _
    rw [hwf, List.range'_concat]
    rw [List.map_append, List.map_singleton]
    have : 1 + 1 * db.txLog.lastId = db.txLog.lastId + 1 := by omega
    rw [this]

end BonsaiDb

namespace BonsaiDb

theorem txLog_append_of_commit_witness :
    TxLogWellFormed emptyDbState ∧ emptyDbState.txLog.lastId + 1 < 2 ^ 64 ∧
    (Database.applyTransaction sampleSchema emptyDbState sampleTx).isOk = true ∧
    (Database.applyTransactionState sampleSchema emptyDbState sampleTx).txLog.lastId =
      emptyDbState.txLog.lastId + 1 :=
  ⟨rfl, by unfold emptyDbState; norm_num,
    rfl,
    (txLog_append_of_commit sampleSchema emptyDbState sampleTx rfl
      (by unfold emptyDbState; norm_num) rfl).2.1⟩

end BonsaiDb

namespace BonsaiDb

/-- C3: after a committed transaction, every non-unique view of a changed
document's collection has that document's id inserted into its `invalidated`
tree (an insert of an already-present id being a no-op on a sorted tree),
while unique views — which the pipeline updates synchronously during
operation execution, the later phases leaving every view's entries tree as
the execution phase produced it — receive no invalidation rows. -/
theorem invalidation_seeding_of_commit (schema : Schematic) (db : DbState)
    (tx : Transaction)
    (hnd : (schema.views.map ViewDef.name).Nodup)
    (hok : (Database.applyTransaction schema db tx).isOk = true) :
    (∀ v ∈ schema.views,
      (v.unique = false →
        ((Database.applyTransactionState schema db tx).viewTrees v.name).invalidated =
          insertIdsInto ((db.viewTrees v.name).invalidated)
            ((changedDocumentsOf (Database.applyTransactionResults schema db tx)).filter
              (fun cd => cd.collection == v.collection))) ∧
      (v.unique = true →
        ((Database.applyTransactionState schema db tx).viewTrees v.name).invalidated =
          (db.viewTrees v.name).invalidated)) ∧
    (∀ rs s1, Database.executeOperations schema db tx.operations = .ok (rs, s1) →
      ∀ n, ((Database.applyTransactionState schema db tx).viewTrees n).entries =
        (s1.viewTrees n).entries) ∧
    (∀ (t : Tree Unit) (k : Bytes), Tree.SortedKeys t → Tree.get t k = some () →
      Tree.insert t k () = t) := by
  cases happ : Database.applyTransaction schema db tx with
  | error e => rw [happ] at hok; simp [Except.isOk, Except.toBool] at hok
  | ok p =>
    obtain ⟨results, s'⟩ := p
    obtain ⟨s1, hexec, hs'⟩ := applyTransaction_ok_elim happ
    have hstate : Database.applyTransactionState schema db tx = s' := by
      unfold Database.applyTransactionState
      rw [happ]
    have hresults : Database.applyTransactionResults schema db tx = results := by
      unfold Database.applyTransactionResults
      rw [happ]
    have hviewtrees : s'.viewTrees =
        (Database.insertInvalidations schema s1 (changedDocumentsOf results)).viewTrees := by
      rw [hs']
      unfold Database.commitState
      dsimp only
    refine ⟨?_, ?_, fun t k hs hget => Tree.insert_eq_self_of_get t k () hs hget⟩
    · intro v hv
      have hinv := insertInvalidations_inval schema s1 (changedDocumentsOf results) v hv hnd
      have hup := (executeOperations_ok_pres hexec).2 v.name
      constructor
      · intro hu
        rw [hstate, hresults, hviewtrees, hinv, hup]
        simp [hu]
      · intro hu
        rw [hstate, hviewtrees, hinv, hup]
        simp [hu]
    · intro rs2 s12 hexec2 n
      have hs12 : s12 = s1 := by
        rw [hexec] at hexec2
        simp only [Except.ok.injEq, Prod.mk.injEq] at hexec2
        exact hexec2.2.symm
      rw [hstate, hviewtrees, hs12]
      exact (insertInvalidations_pres schema s1 (changedDocumentsOf results)).2.2 n |>.1

theorem invalidation_seeding_of_commit_witness :
    ((sampleSchema.views.map ViewDef.name).Nodup ∧
      (Database.applyTransaction sampleSchema emptyDbState sampleTx).isOk = true) ∧
    ((Database.applyTransactionState sampleSchema emptyDbState sampleTx).viewTrees
        "a.by-name").invalidated =
      insertIdsInto ((emptyDbState.viewTrees "a.by-name").invalidated)
        ((changedDocumentsOf (Database.applyTransactionResults sampleSchema emptyDbState
            sampleTx)).filter (fun cd => cd.collection == "a.people")) ∧
    ((Database.applyTransactionState sampleSchema emptyDbState sampleTx).viewTrees
        "a.by-email").invalidated =
      (emptyDbState.viewTrees "a.by-email").invalidated := by
  refine ⟨⟨by decide, rfl⟩, ?_, ?_⟩
  · exact (invalidation_seeding_of_commit sampleSchema emptyDbState sampleTx
      (by decide) rfl).1 sampleViewByName (List.mem_cons_self _ _) |>.1 rfl
  · exact (invalidation_seeding_of_commit sampleSchema emptyDbState sampleTx
      (by decide) rfl).1 sampleViewByEmail
        (List.mem_cons_of_mem _ (List.mem_cons_self _ _)) |>.2 rfl

end BonsaiDb

namespace BonsaiDb

theorem executeOperation_error_of_check {schema : Schematic} {s : DbState}
    {op : Operation} {e : DbError}
    (habort : documentCheckAbort s op = some e) :
    Database.executeOperation schema s op = .error e := by
  obtain ⟨collection, cmd⟩ := op
  cases cmd with
  | insert contents ek => simp [documentCheckAbort] at habort
  | update header contents =>
    unfold documentCheckAbort at habort
    dsimp only at habort
    unfold Database.executeOperation Database.executeUpdate
    dsimp only
    cases hget : Tree.get ((s.collections collection)).documents (be8 header.id) with
    | none =>
      rw [hget] at habort
      simp only [Option.some.injEq] at habort
      subst habort
      rfl
    | some doc =>
      rw [hget] at habort
      dsimp only at habort ⊢
      by_cases hrev : doc.header.revision = header.revision
      · rw [if_pos hrev] at habort
        exact absurd habort (by simp)
      · rw [if_neg hrev] at habort
        simp only [Option.some.injEq] at habort
        subst habort
        rw [if_neg hrev]
  | delete header =>
    unfold documentCheckAbort at habort
    dsimp only at habort
    unfold Database.executeOperation Database.executeDelete
    dsimp only
    cases hget : Tree.get ((s.collections collection)).documents (be8 header.id) with
    | none =>
      rw [hget] at habort
      simp only [Option.some.injEq] at habort
      subst habort
      rfl
    | some doc =>
      rw [hget] at habort
      dsimp only at habort ⊢
      by_cases hhdr : doc.header = header
      · rw [if_pos hhdr] at habort
        exact absurd habort (by simp)
      · rw [if_neg hhdr] at habort
        simp only [Option.some.injEq] at habort
        subst habort
        rw [if_neg hhdr]

/-- C2: when an `Update` or `Delete` operation reaches execution and its
target id is absent the whole transaction aborts with `DocumentNotFound`;
when the document exists but the supplied revision (update) or header
(delete) differs from the stored one it aborts with `DocumentConflict`
(`documentCheckAbort` enumerates exactly these cases); on any such abort
sled rolls back every tree, so the visible state is the original one — no
document change and no transaction-log entry persists. -/
theorem update_delete_abort_rolls_back (schema : Schematic) (db : DbState)
    (pre post : List Operation) (op : Operation)
    (rs : List OperationResult) (s : DbState) (e : DbError)
    (hcolls : (pre ++ op :: post).all
      (fun o => schema.containsCollectionId o.collection) = true)
    (hpre : Database.executeOperations schema db pre = .ok (rs, s))
    (habort : documentCheckAbort s op = some e) :
    Database.applyTransaction schema db ⟨pre ++ op :: post⟩ = .error e ∧
    Database.applyTransactionState schema db ⟨pre ++ op :: post⟩ = db := by
  have hop : Database.executeOperation schema s op = .error e :=
    executeOperation_error_of_check habort
  have hrest : Database.executeOperations schema s (op :: post) = .error e := by
    unfold Database.executeOperations
    rw [hop]
  have hall : Database.executeOperations schema db (pre ++ op :: post) = .error e :=
    executeOperations_append_error hpre hrest
  have happ : Database.applyTransaction schema db ⟨pre ++ op :: post⟩ = .error e := by
    unfold Database.applyTransaction
    rw [if_pos]
    · rw [hall]
    · exact hcolls
  refine ⟨happ, ?_⟩
  unfold Database.applyTransactionState
  rw [happ]

theorem update_delete_abort_rolls_back_witness :
    (([] ++ ({ collection := "a.people"
               command := Command.update
                 { id := 5, revision := { generation := 1, sha256 := [9] }
                   encryption_key := none } [9] } : Operation) :: []).all
      (fun o => sampleSchema.containsCollectionId o.collection) = true) ∧
    Database.applyTransaction sampleSchema sampleState1
      ⟨[{ collection := "a.people"
          command := Command.update
            { id := 5, revision := { generation := 1, sha256 := [9] }
              encryption_key := none } [9] }]⟩ =
      .error (.documentNotFound "a.people" 5) ∧
    Database.applyTransactionState sampleSchema sampleState1
      ⟨[{ collection := "a.people"
          command := Command.update
            { id := 5, revision := { generation := 1, sha256 := [9] }
              encryption_key := none } [9] }]⟩ = sampleState1 := by
  refine ⟨rfl, ?_⟩
  have h := update_delete_abort_rolls_back sampleSchema sampleState1 [] []
    { collection := "a.people"
      command := Command.update
        { id := 5, revision := { generation := 1, sha256 := [9] }
          encryption_key := none } [9] }
    [] sampleState1 (.documentNotFound "a.people" 5) rfl rfl rfl
  exact h

end BonsaiDb

namespace BonsaiDb

/-- C4: an `Update` whose supplied revision matches the stored document and
whose contents are identical to the stored contents succeeds with
`DocumentUpdated` carrying the unchanged stored header — no new revision
generation — leaves the state untouched at the operation level, and a
transaction carrying it commits reporting that result with every collection
tree unchanged. -/
theorem update_same_contents_no_change (schema : Schematic) (db : DbState)
    (collection : String) (header : Header) (contents : Bytes) (doc : Document)
    (hcoll : schema.containsCollectionId collection = true)
    (hdoc : Tree.get ((db.collections collection).documents) (be8 header.id) = some doc)
    (hrev : doc.header.revision = header.revision)
    (hsha : doc.header.revision.sha256 = contentsDigest doc.contents)
    (hsame : contents = doc.contents) :
    Database.executeUpdate schema db collection header contents =
      .ok (.documentUpdated collection doc.header, db) ∧
    Database.applyTransaction schema db
        ⟨[{ collection := collection, command := .update header contents }]⟩ =
      .ok ([.documentUpdated collection doc.header],
        Database.commitState schema db [.documentUpdated collection doc.header]) ∧
    (Database.applyTransactionState schema db
        ⟨[{ collection := collection, command := .update header contents }]⟩).collections =
      db.collections := by
  have hnorev : doc.createNewRevision contents = none := by
    unfold Document.createNewRevision
    rw [if_pos]
    rw [hsame, ← hsha]
  have hupd : Database.executeUpdate schema db collection header contents =
      .ok (.documentUpdated collection doc.header, db) := by
    unfold Database.executeUpdate
    dsimp only
    rw [hdoc]
    dsimp only
    rw [if_pos hrev, hnorev]
  have hexec : Database.executeOperations schema db
      [{ collection := collection, command := .update header contents }] =
      .ok ([.documentUpdated collection doc.header], db) := by
    unfold Database.executeOperations
    have hop : Database.executeOperation schema db
        { collection := collection, command := .update header contents } =
        .ok (.documentUpdated collection doc.header, db) := by
      unfold Database.executeOperation
      exact hupd
    rw [hop]
    dsimp only
    rfl
  have happ : Database.applyTransaction schema db
      ⟨[{ collection := collection, command := .update header contents }]⟩ =
      .ok ([.documentUpdated collection doc.header],
        Database.commitState schema db [.documentUpdated collection doc.header]) := by
    unfold Database.applyTransaction
    rw [if_pos]
    · rw [hexec]
    · simp [hcoll]
  refine ⟨hupd, happ, ?_⟩
  unfold Database.applyTransactionState
  rw [happ]
  unfold Database.commitState
  dsimp only
  exact (insertInvalidations_pres schema db
    (changedDocumentsOf [.documentUpdated collection doc.header])).2.1

theorem update_same_contents_no_change_witness :
    (sampleSchema.containsCollectionId "a.people" = true ∧
      Tree.get ((sampleState1.collections "a.people").documents) (be8 sampleDoc1.header.id) =
        some sampleDoc1) ∧
    Database.executeUpdate sampleSchema sampleState1 "a.people" sampleDoc1.header [7] =
      .ok (.documentUpdated "a.people" sampleDoc1.header, sampleState1) ∧
    (Database.applyTransactionState sampleSchema sampleState1
        ⟨[{ collection := "a.people"
            command := .update sampleDoc1.header [7] }]⟩).collections =
      sampleState1.collections := by
  have h := update_same_contents_no_change sampleSchema sampleState1 "a.people"
    sampleDoc1.header [7] sampleDoc1 rfl rfl rfl rfl rfl
  exact ⟨⟨rfl, rfl⟩, h.1, h.2.2⟩

end BonsaiDb

namespace BonsaiDb

/-- C5: a non-grouped reduce returns the stored reduced value verbatim when
the grouped reduction yields exactly one row — whatever the view's reduce
function is, it is not invoked — and otherwise applies the view's reduce to
all matched `(key, reduced_value)` pairs with `rereduce = true` (also when
zero rows match). -/
theorem reduce_single_row_short_circuit (view_entries : Tree ViewEntry)
    (key : Option (QueryKey Bytes)) (view : ViewDef) (ms : List MappedValue)
    (h : Database.groupedReduceInView view_entries key view = .ok ms) :
    (∀ m, ms = [m] → ∀ (rf : List (Bytes × Bytes) → Bool → Bytes),
      Database.reduceInView view_entries key { view with reduceFn := rf } = .ok m.value) ∧
    (ms.length ≠ 1 →
      Database.reduceInView view_entries key view =
        .ok (view.reduceFn (ms.map fun m => (m.key, m.value)) true)) := by
  constructor
  · intro m hm rf
    subst hm
    have hsame : Database.groupedReduceInView view_entries key
        { view with reduceFn := rf } = .ok [m] := h
    unfold Database.reduceInView
    rw [hsame]
    simp [Except.map]
  · intro hlen
    unfold Database.reduceInView
    rw [h]
    simp [Except.map, if_neg hlen]

theorem reduce_single_row_short_circuit_witness :
    (Database.groupedReduceInView [([3], { key := [3], mappings := [{ source := 1, value := [9] }], reduced_value := [9] })]
        (some (.matches [3])) sampleViewByName =
      .ok [{ key := [3], value := [9] }]) ∧
    Database.reduceInView [([3], { key := [3], mappings := [{ source := 1, value := [9] }], reduced_value := [9] })]
        (some (.matches [3])) sampleViewByName = .ok [9] := by
  refine ⟨rfl, ?_⟩
  have h := (reduce_single_row_short_circuit
    [([3], { key := [3], mappings := [{ source := 1, value := [9] }], reduced_value := [9] })]
    (some (.matches [3])) sampleViewByName [{ key := [3], value := [9] }] rfl).1
    { key := [3], value := [9] } rfl sampleViewByName.reduceFn
  exact h

/-- C7: a `Range` key selector on a view with encryptable keys makes the
view-entry scan — and therefore query, grouped reduce, and reduce — fail
with `RangeQueryNotSupported`; on a view without encryptable keys it
performs a bounded forward scan over the big-endian-encoded keys, from the
start key (inclusive) to the end key (exclusive), and the returned keys stay
in ascending big-endian (lexicographic) order. -/
theorem range_selector_rules (view_entries : Tree ViewEntry) (view : ViewDef)
    (start stop : Bytes) :
    (view.keysAreEncryptable = true →
      Database.createViewIterator view_entries (some (.range start stop)) view =
        .error .rangeQueryNotSupported ∧
      Database.query view_entries (some (.range start stop)) view =
        .error .rangeQueryNotSupported ∧
      Database.groupedReduceInView view_entries (some (.range start stop)) view =
        .error .rangeQueryNotSupported ∧
      Database.reduceInView view_entries (some (.range start stop)) view =
        .error .rangeQueryNotSupported) ∧
    (view.keysAreEncryptable = false → Tree.SortedKeys view_entries →
      Database.createViewIterator view_entries (some (.range start stop)) view =
        .ok ((view_entries.filter
          (fun kv => !lexLt kv.1 start && lexLt kv.1 stop)).map Prod.snd) ∧
      List.Chain' (fun a b => lexLt a b = true)
        (Tree.keys (Tree.range view_entries start stop))) := by
  constructor
  · intro henc
    have hiter : Database.createViewIterator view_entries (some (.range start stop)) view =
        .error .rangeQueryNotSupported := by
      unfold Database.createViewIterator
      dsimp only
      rw [if_pos henc]
    refine ⟨hiter, ?_, ?_, ?_⟩
    · unfold Database.query
      rw [hiter]
      rfl
    · unfold Database.groupedReduceInView
      rw [hiter]
      rfl
    · unfold Database.reduceInView Database.groupedReduceInView
      rw [hiter]
      rfl
  · intro henc hsorted
    constructor
    · unfold Database.createViewIterator
      dsimp only
      rw [henc]
      simp only [Bool.false_eq_true, if_false]
      rfl
    · have hp := List.chain'_iff_pairwise.mp hsorted
      have hsub : List.Sublist (Tree.keys (Tree.range view_entries start stop))
          (Tree.keys view_entries) :=
        (List.filter_sublist view_entries).map Prod.fst
      exact List.chain'_iff_pairwise.mpr (hp.sublist hsub)

theorem range_selector_rules_witness :
    ((sampleViewByName.keysAreEncryptable = false ∧
        Tree.SortedKeys ([([2], { key := [2], mappings := [], reduced_value := [] }),
          ([5], { key := [5], mappings := [], reduced_value := [] })] : Tree ViewEntry)) ∧
      Database.createViewIterator
        [([2], { key := [2], mappings := [], reduced_value := [] }),
         ([5], { key := [5], mappings := [], reduced_value := [] })]
        (some (.range [1] [4])) sampleViewByName =
        .ok [{ key := [2], mappings := [], reduced_value := [] }]) ∧
    ({ sampleViewByName with keysAreEncryptable := true }.keysAreEncryptable = true ∧
      Database.query
        [([2], { key := [2], mappings := [], reduced_value := [] })]
        (some (.range [1] [4])) { sampleViewByName with keysAreEncryptable := true } =
        .error .rangeQueryNotSupported) := by
  constructor
  · refine ⟨⟨rfl, by
      unfold Tree.SortedKeys Tree.keys
      simp only [List.map_cons, List.map_nil, List.chain'_cons, List.chain'_singleton, and_true]
      decide⟩, ?_⟩
    have h := (range_selector_rules
      [([2], { key := [2], mappings := [], reduced_value := [] }),
       ([5], { key := [5], mappings := [], reduced_value := [] })]
      sampleViewByName [1] [4]).2 rfl (by
      unfold Tree.SortedKeys Tree.keys
      simp only [List.map_cons, List.map_nil, List.chain'_cons, List.chain'_singleton, and_true]
      decide)
    rw [h.1]
    rfl
  · refine ⟨rfl, ?_⟩
    exact ((range_selector_rules
      [([2], { key := [2], mappings := [], reduced_value := [] })]
      { sampleViewByName with keysAreEncryptable := true } [1] [4]).1 rfl).2.1

end BonsaiDb

namespace BonsaiDb

theorem Tree.mem_of_get {α : Type} {t : Tree α} {k : Bytes} {v : α}
    (h : Tree.get t k = some v) : (k, v) ∈ t := by
  induction t with
  | nil => simp [Tree.get] at h
  | cons hd tl ih =>
    obtain ⟨k0, v0⟩ := hd
    by_cases hk : k = k0
    · subst hk
      have : v0 = v := by simpa [Tree.get] using h
      subst this
      exact List.mem_cons_self _ _
    · have : Tree.get tl k = some v := by simpa [Tree.get, hk] using h
      exact List.mem_cons_of_mem _ (ih this)

/-- C10: `get_multiple` point-looks each given id up in input order; the
result is exactly the found documents (one per input occurrence whose id is
stored), with ids that have no stored document silently omitted: it equals
the input list filter-mapped through the tree lookup, every returned
document is stored under its own id, and the result length counts exactly
the input positions whose lookup succeeds. -/
theorem get_multiple_order_and_omission (documents : Tree Document) (ids : List Nat)
    (hwf : collectionWellFormed documents) :
    Database.getMultipleFromCollectionId documents ids =
      ids.filterMap (fun id => Tree.get documents (be8 id)) ∧
    (∀ d ∈ Database.getMultipleFromCollectionId documents ids,
      Tree.get documents (be8 d.header.id) = some d) ∧
    (Database.getMultipleFromCollectionId documents ids).length =
      (ids.filter (fun id => (Tree.get documents (be8 id)).isSome)).length := by
  refine ⟨?_, ?_, ?_⟩
  · induction ids with
    | nil => rfl
    | cons id rest ih =>
      unfold Database.getMultipleFromCollectionId
      cases hget : Tree.get documents (be8 id) with
      | none => simp [List.filterMap_cons, hget, ih]
      | some doc => simp [List.filterMap_cons, hget, ih]
  · induction ids with
    | nil => intro d hd; exact absurd hd (List.not_mem_nil d)
    | cons id rest ih =>
      intro d hd
      unfold Database.getMultipleFromCollectionId at hd
      cases hget : Tree.get documents (be8 id) with
      | none =>
        rw [hget] at hd
        exact ih d hd
      | some doc =>
        rw [hget] at hd
        cases List.mem_cons.mp hd with
        | inl hhead =>
          subst hhead
          have hmem := Tree.mem_of_get hget
          have hkey := hwf _ hmem
          simp only at hkey
          rw [← hkey]
          exact hget
        | inr htail => exact ih d htail
  · induction ids with
    | nil => rfl
    | cons id rest ih =>
      unfold Database.getMultipleFromCollectionId
      cases hget : Tree.get documents (be8 id) with
      | none => simp [List.filter_cons, hget, ih]
      | some doc => simp [List.filter_cons, hget, ih]

theorem get_multiple_order_and_omission_witness :
    collectionWellFormed ((sampleState1.collections "a.people").documents) ∧
    Database.getMultipleFromCollectionId ((sampleState1.collections "a.people").documents)
        [9, 1, 1] =
      [9, 1, 1].filterMap
        (fun id => Tree.get ((sampleState1.collections "a.people").documents) (be8 id)) := by
  constructor
  · intro kv hkv
    revert hkv
    have : (sampleState1.collections "a.people").documents = [(be8 1, sampleDoc1)] := rfl
    rw [this]
    intro hkv
    rcases List.mem_singleton.mp hkv with rfl
    rfl
  · exact (get_multiple_order_and_omission
      ((sampleState1.collections "a.people").documents) [9, 1, 1]
      (by
        intro kv hkv
        revert hkv
        have : (sampleState1.collections "a.people").documents = [(be8 1, sampleDoc1)] := rfl
        rw [this]
        intro hkv
        rcases List.mem_singleton.mp hkv with rfl
        rfl)).1

/-- C9: `list_executed_transactions` returns at most `min(result_limit,
1000)` records when a limit is supplied, at most the default of 1000 when it
is not, always succeeds, and a zero limit yields an empty `Ok` result. -/
theorem list_executed_transactions_limits (txLog : TxLog) (starting_id : Option Nat) :
    (∀ lim rows, Database.listExecutedTransactions txLog starting_id (some lim) =
        .ok rows → rows.length ≤ min lim 1000) ∧
    (∀ rows, Database.listExecutedTransactions txLog starting_id none = .ok rows →
      rows.length ≤ 1000) ∧
    Database.listExecutedTransactions txLog starting_id (some 0) = .ok [] ∧
    (∀ rl, (Database.listExecutedTransactions txLog starting_id rl).isOk = true) := by
  have hcollect : ∀ (rows : List Executed) (limit : Nat), 1 ≤ limit →
      (collectTransactions limit rows).length ≤ limit := by
    intro rows
    induction rows with
    | nil => intro limit _; simp [collectTransactions]
    | cons row rest ih =>
      intro limit hlim
      unfold collectTransactions
      by_cases h1 : limit ≤ 1
      · rw [if_pos h1]
        simpa using hlim
      · rw [if_neg h1]
        have := ih (limit - 1) (by omega)
        simp only [List.length_cons]
        omega
  refine ⟨?_, ?_, ?_, ?_⟩
  · intro lim rows h
    unfold Database.listExecutedTransactions at h
    simp only [Option.getD_some, LIST_TRANSACTIONS_DEFAULT_RESULT_COUNT,
      LIST_TRANSACTIONS_MAX_RESULTS] at h
    by_cases hpos : min lim 1000 > 0
    · rw [if_pos hpos] at h
      simp only [Except.ok.injEq] at h
      subst h
      exact hcollect _ _ (by omega)
    · rw [if_neg hpos] at h
      simp only [Except.ok.injEq] at h
      subst h
      simp
  · intro rows h
    unfold Database.listExecutedTransactions at h
    simp only [Option.getD_none, LIST_TRANSACTIONS_DEFAULT_RESULT_COUNT,
      LIST_TRANSACTIONS_MAX_RESULTS] at h
    rw [if_pos (by norm_num)] at h
    simp only [Except.ok.injEq] at h
    subst h
    refine le_trans (hcollect _ _ ?_) ?_ <;> norm_num
  · unfold Database.listExecutedTransactions
    simp [LIST_TRANSACTIONS_DEFAULT_RESULT_COUNT, LIST_TRANSACTIONS_MAX_RESULTS]
  · intro rl
    unfold Database.listExecutedTransactions
    dsimp only
    split
    · rfl
    · rfl

theorem list_executed_transactions_limits_witness :
    Database.listExecutedTransactions { entries := [], lastId := 0 } none (some 0) =
      .ok [] ∧
    (Database.listExecutedTransactions { entries := [], lastId := 0 } none
      (some 3)).isOk = true :=
  ⟨(list_executed_transactions_limits { entries := [], lastId := 0 } none).2.2.1,
   (list_executed_transactions_limits { entries := [], lastId := 0 } none).2.2.2 (some 3)⟩

end BonsaiDb

namespace BonsaiDb

/-- C8: the database-namespaced topic is the concatenation of the database
name's bytes, one `0x00` byte, and the user topic bytes; the hosted publish
and subscribe paths both apply this namespacing, so a subscriber that
subscribed to a user topic receives the published message, and every
delivered `Message.topic` carries the namespaced form. -/
theorem database_topic_namespacing (database_name : Bytes) (r : Relay)
    (subscriber_id : Nat) (topic payload : Bytes) :
    database_topic database_name topic = database_name ++ 0 :: topic ∧
    (subscriber_id,
      ({ topic := database_topic database_name topic, payload := payload } : Message)) ∈
      Database.publish database_name
        (Subscriber.subscribeTo database_name r subscriber_id topic) topic payload ∧
    (∀ p ∈ Database.publish database_name r topic payload,
      p.2.topic = database_name ++ 0 :: topic) := by
  have htopic : database_topic database_name topic = database_name ++ 0 :: topic := by
    unfold database_topic
    simp
  refine ⟨htopic, ?_, ?_⟩
  · have hmem : (subscriber_id, database_topic database_name topic) ∈
        (Subscriber.subscribeTo database_name r subscriber_id topic).subscriptions := by
      unfold Subscriber.subscribeTo Relay.subscribeTo
      by_cases hc : r.subscriptions.contains (subscriber_id, database_topic database_name topic)
      · rw [if_pos hc]
        exact List.elem_iff.mp hc
      · rw [if_neg hc]
        exact List.mem_cons_self _ _
    unfold Database.publish Relay.publishRaw
    refine List.mem_map.mpr ⟨(subscriber_id, database_topic database_name topic), ?_, rfl⟩
    refine List.mem_filter.mpr ⟨hmem, ?_⟩
    simp
  · intro p hp
    unfold Database.publish Relay.publishRaw at hp
    obtain ⟨sub, hsub, hpe⟩ := List.mem_map.mp hp
    rw [← hpe]
    exact htopic

theorem database_topic_namespacing_witness :
    database_topic [100, 98] [116] = [100, 98] ++ 0 :: [116] ∧
    ((7 : Nat), ({ topic := database_topic [100, 98] [116], payload := [109] } : Message)) ∈
      Database.publish [100, 98]
        (Subscriber.subscribeTo [100, 98] ⟨[]⟩ 7 [116]) [116] [109] :=
  ⟨(database_topic_namespacing [100, 98] ⟨[]⟩ 7 [116] [109]).1,
   (database_topic_namespacing [100, 98] ⟨[]⟩ 7 [116] [109]).2.1⟩

end BonsaiDb

namespace BonsaiDb

theorem docMapGet_mem {m : List (Nat × Document)} {id : Nat} {d : Document}
    (h : docMapGet m id = some d) : (id, d) ∈ m := by
  induction m with
  | nil => simp [docMapGet] at h
  | cons p rest ih =>
    obtain ⟨i, doc⟩ := p
    by_cases hid : id = i
    · subst hid
      have : doc = d := by simpa [docMapGet] using h
      subst this
      exact List.mem_cons_self _ _
    · have : docMapGet rest id = some d := by simpa [docMapGet, hid] using h
      exact List.mem_cons_of_mem _ (ih this)

theorem docMapInsert_mem {m : List (Nat × Document)} {id : Nat} {doc : Document}
    {p : Nat × Document} (h : p ∈ docMapInsert m id doc) :
    p = (id, doc) ∨ p ∈ m := by
  unfold docMapInsert at h
  cases List.mem_cons.mp h with
  | inl heq => exact Or.inl heq
  | inr htail => exact Or.inr (List.mem_of_mem_filter htail)

theorem buildDocMap_prop (P : Nat × Document → Prop) :
    ∀ (docs : List Document) (m0 : List (Nat × Document)),
    (∀ p ∈ m0, P p) → (∀ doc ∈ docs, P (doc.header.id, doc)) →
    ∀ p ∈ docs.foldl (fun m doc => docMapInsert m doc.header.id doc) m0, P p := by
  intro docs
  induction docs with
  | nil => intro m0 hm0 _ p hp; exact hm0 p hp
  | cons doc rest ih =>
    intro m0 hm0 hdocs p hp
    have hfold : (doc :: rest).foldl (fun m doc => docMapInsert m doc.header.id doc) m0 =
        rest.foldl (fun m doc => docMapInsert m doc.header.id doc)
          (docMapInsert m0 doc.header.id doc) := rfl
    rw [hfold] at hp
    refine ih (docMapInsert m0 doc.header.id doc) ?_
      (fun d hd => hdocs d (List.mem_cons_of_mem _ hd)) p hp
    intro q hq
    cases docMapInsert_mem hq with
    | inl heq => subst heq; exact hdocs doc (List.mem_cons_self _ _)
    | inr hmem => exact hm0 q hmem

theorem getMultiple_mem {documents : Tree Document} :
    ∀ {ids : List Nat} {d : Document},
    d ∈ Database.getMultipleFromCollectionId documents ids →
    ∃ id ∈ ids, Tree.get documents (be8 id) = some d := by
  intro ids
  induction ids with
  | nil => intro d hd; exact absurd hd (List.not_mem_nil d)
  | cons id rest ih =>
    intro d hd
    unfold Database.getMultipleFromCollectionId at hd
    cases hget : Tree.get documents (be8 id) with
    | none =>
      rw [hget] at hd
      obtain ⟨i, hi, hgi⟩ := ih hd
      exact ⟨i, List.mem_cons_of_mem _ hi, hgi⟩
    | some doc =>
      rw [hget] at hd
      cases List.mem_cons.mp hd with
      | inl hhead => exact ⟨id, List.mem_cons_self _ _, hhead ▸ hget⟩
      | inr htail =>
        obtain ⟨i, hi, hgi⟩ := ih htail
        exact ⟨i, List.mem_cons_of_mem _ hi, hgi⟩

theorem consumeMappedDocuments_spec (documents : Tree Document) :
    ∀ (results : List SerializedMap) (dmap : List (Nat × Document)),
    (∀ p ∈ dmap, Tree.get documents (be8 p.2.header.id) = some p.2 ∧ p.2.header.id = p.1) →
    List.Sublist
      ((consumeMappedDocuments results dmap).map
        (fun d => (d.key, d.value, d.source.header.id)))
      (results.map (fun m => (m.key, m.value, m.source))) ∧
    (∀ d ∈ consumeMappedDocuments results dmap,
      Tree.get documents (be8 d.source.header.id) = some d.source) := by
  intro results
  induction results with
  | nil =>
    intro dmap _
    exact ⟨List.nil_sublist _, fun d hd => absurd hd (List.not_mem_nil d)⟩
  | cons m rest ih =>
    intro dmap hdm
    unfold consumeMappedDocuments
    cases hget : docMapGet dmap m.source with
    | none =>
      obtain ⟨ihs, ihf⟩ := ih dmap hdm
      exact ⟨ihs.cons _, ihf⟩
    | some doc =>
      have hpm : (m.source, doc) ∈ dmap := docMapGet_mem hget
      obtain ⟨hfound, hid⟩ := hdm _ hpm
      have hdm' : ∀ p ∈ docMapRemove dmap m.source,
          Tree.get documents (be8 p.2.header.id) = some p.2 ∧ p.2.header.id = p.1 :=
        fun p hp => hdm p (List.mem_of_mem_filter hp)
      obtain ⟨ihs, ihf⟩ := ih (docMapRemove dmap m.source) hdm'
      constructor
      · simp only [List.map_cons]
        have hid' : doc.header.id = m.source := hid
        rw [hid']
        exact ihs.cons₂ _
      · intro d hd
        cases List.mem_cons.mp hd with
        | inl hhead =>
          subst hhead
          exact hfound
        | inr htail => exact ihf d htail

/-- C6: `query_with_docs` joins the query's mappings with their fetched
documents in mapping order: the call succeeds whenever the query does, the
returned `(key, value, source id)` triples form an order-preserving
subsequence of the query's mappings, every returned document is the stored
document of its id, and every mapping whose source document is absent from
the collection at fetch time is dropped from the result rather than
reported as an error. -/
theorem query_with_docs_order_and_drop (view_entries : Tree ViewEntry)
    (key : Option (QueryKey Bytes)) (view : ViewDef) (documents : Tree Document)
    (rs : List SerializedMap)
    (hwf : collectionWellFormed documents)
    (hq : Database.query view_entries key view = .ok rs) :
    (Database.queryWithDocs view_entries key view documents).isOk = true ∧
    (∀ out, Database.queryWithDocs view_entries key view documents = .ok out →
      List.Sublist
        (out.map (fun d => (d.key, d.value, d.source.header.id)))
        (rs.map (fun m => (m.key, m.value, m.source))) ∧
      (∀ d ∈ out, Tree.get documents (be8 d.source.header.id) = some d.source) ∧
      (∀ m ∈ rs, Tree.get documents (be8 m.source) = none →
        ∀ d ∈ out, d.source.header.id ≠ m.source)) := by
  have hqbody : Database.queryWithDocs view_entries key view documents =
      .ok (consumeMappedDocuments rs
        ((Database.getMultipleFromCollectionId documents
          (rs.map (fun m => m.source))).foldl
          (fun m doc => docMapInsert m doc.header.id doc) [])) := by
    unfold Database.queryWithDocs
    rw [hq]
  have hdm : ∀ p ∈ (Database.getMultipleFromCollectionId documents
      (rs.map (fun m => m.source))).foldl
      (fun m doc => docMapInsert m doc.header.id doc) [],
      Tree.get documents (be8 p.2.header.id) = some p.2 ∧ p.2.header.id = p.1 := by
    refine buildDocMap_prop _ _ _ (by intro p hp; exact absurd hp (List.not_mem_nil p)) ?_
    intro doc hdoc
    obtain ⟨i, -, hgi⟩ := getMultiple_mem hdoc
    have hmem := Tree.mem_of_get hgi
    have hkey := hwf _ hmem
    simp only at hkey
    exact ⟨hkey ▸ hgi, rfl⟩
  obtain ⟨hsub, hfound⟩ := consumeMappedDocuments_spec documents rs _ hdm
  refine ⟨by rw [hqbody]; rfl, ?_⟩
  intro out hout
  rw [hqbody] at hout
  simp only [Except.ok.injEq] at hout
  subst hout
  refine ⟨hsub, hfound, ?_⟩
  intro m hm hnone d hd heq
  have := hfound d hd
  rw [heq, hnone] at this
  exact absurd this (by simp)

theorem query_with_docs_order_and_drop_witness :
    (collectionWellFormed ((sampleState1.collections "a.people").documents) ∧
      Database.query [([7], { key := [7], mappings := [{ source := 1, value := [1] },
          { source := 6, value := [2] }], reduced_value := [1] })]
        (some (.matches [7])) sampleViewByName =
        .ok [{ source := 1, key := [7], value := [1] },
             { source := 6, key := [7], value := [2] }]) ∧
    (Database.queryWithDocs [([7], { key := [7], mappings := [{ source := 1, value := [1] },
        { source := 6, value := [2] }], reduced_value := [1] })]
      (some (.matches [7])) sampleViewByName
      ((sampleState1.collections "a.people").documents)).isOk = true := by
  have hwf : collectionWellFormed ((sampleState1.collections "a.people").documents) := by
    intro kv hkv
    revert hkv
    have : (sampleState1.collections "a.people").documents = [(be8 1, sampleDoc1)] := rfl
    rw [this]
    intro hkv
    rcases List.mem_singleton.mp hkv with rfl
    rfl
  refine ⟨⟨hwf, rfl⟩, ?_⟩
  exact (query_with_docs_order_and_drop
    [([7], { key := [7], mappings := [{ source := 1, value := [1] },
        { source := 6, value := [2] }], reduced_value := [1] })]
    (some (.matches [7])) sampleViewByName
    ((sampleState1.collections "a.people").documents)
    [{ source := 1, key := [7], value := [1] }, { source := 6, key := [7], value := [2] }]
    hwf rfl).1

end BonsaiDb
